import Mathlib

/-!
Verification of the mirror-clone storage/transfer core against its
specification.  Rust strings are modelled as `List Char` wherever their
byte-wise ordering matters (UTF-8 byte order agrees with code-point order),
and as Lean `String` where only equality is used.  Fallible Rust functions
(`Result`) are modelled with `Except`; a Rust panic is modelled as a
distinguished outcome constructor.
-/

namespace MirrorClone

/-- A snapshot key, modelled as the list of characters of the Rust string. -/
abbrev KeyC := List Char

/-- Three-way lexicographic comparison of keys by character code, the model
of Rust `str::cmp` (byte-wise lexicographic order). -/
def cmpK : KeyC → KeyC → Ordering
  | [], [] => .eq
  | [], _ :: _ => .lt
  | _ :: _, [] => .gt
  | a :: as, b :: bs =>
    if a.toNat < b.toNat then .lt
    else if b.toNat < a.toNat then .gt
    else cmpK as bs

/-- Boolean `≤` on keys, agreeing with `cmpK`; used to model Rust
`sort_by(|a, b| a.key().cmp(b.key()))`. -/
def leK : KeyC → KeyC → Bool
  | [], _ => true
  | _ :: _, [] => false
  | a :: as, b :: bs =>
    if a.toNat < b.toNat then true
    else if b.toNat < a.toNat then false
    else leK as bs

end MirrorClone

namespace MirrorClone.Meta

/-- Model of `SnapshotMetaFlag` (src/metadata.rs). -/
structure SnapshotMetaFlag where
  force : Bool := false
  force_last : Bool := false
deriving DecidableEq, Repr

/-- Model of `SnapshotMeta` (src/metadata.rs).  The key is a character
list; the checksum fields keep Lean strings since only equality on them
is ever used. -/
structure SnapshotMeta where
  key : KeyC := []
  size : Option Nat := none
  last_modified : Option Nat := none
  checksum_method : Option String := none
  checksum : Option String := none
  flags : SnapshotMetaFlag := {}
deriving DecidableEq, Repr

/-- Model of `SnapshotMeta::force` (src/metadata.rs): a default item with
both flags set. -/
def SnapshotMeta.force (key : KeyC) : SnapshotMeta :=
  { key := key, flags := { force := true, force_last := true } }

/-- Model of `compare_option` (src/metadata.rs): equal when both present,
`true` (no difference signalled) when either side is absent. -/
def compareOption {τ : Type} [DecidableEq τ] (a b : Option τ) : Bool :=
  match a, b with
  | some a, some b => a = b
  | _, _ => true

/-- Model of `impl Diff for SnapshotMeta` (src/metadata.rs, lines 74-93). -/
def SnapshotMeta.diff (s other : SnapshotMeta) : Bool :=
  if !compareOption s.size other.size then true
  else if !compareOption s.last_modified other.last_modified then true
  else if !compareOption s.checksum_method other.checksum_method then true
  else if !compareOption s.checksum other.checksum then true
  else if s.flags.force || other.flags.force then true
  else false

/-- Model of `impl Metadata for SnapshotMeta`: priority is −1 for
`force_last` items, 0 otherwise. -/
def SnapshotMeta.priority (s : SnapshotMeta) : Int :=
  if s.flags.force_last then -1 else 0

/-- Spec-side helper: an optional field is present on both sides with
disagreeing values. -/
def presentBothNe {τ : Type} (a b : Option τ) : Prop :=
  ∃ u v, a = some u ∧ b = some v ∧ u ≠ v

instance {τ : Type} [DecidableEq τ] (a b : Option τ) :
    Decidable (presentBothNe a b) := by
  unfold presentBothNe
  match a, b with
  | none, _ => exact .isFalse (by simp)
  | some u, none => exact .isFalse (by simp)
  | some u, some v =>
    exact decidable_of_iff (u ≠ v) (by simp)

end MirrorClone.Meta

namespace MirrorClone.MergePipe

open MirrorClone

/-- Model of `str::strip_prefix`: returns the rest of `s` after the
leading occurrence of `p`, or `none` when `p` does not lead `s`. -/
def stripPre : KeyC → KeyC → Option KeyC
  | [], s => some s
  | _ :: _, [] => none
  | a :: p, b :: s => if a = b then stripPre p s else none

/-- Model of `SnapshotPath` (src/common.rs): a key together with its
`force` flag. -/
structure SnapshotPathM where
  key : KeyC
  force : Bool
deriving DecidableEq, Repr

/-- Configuration of `MergePipe` (src/merge_pipe.rs): the first child's
key namespace and the optional namespace of the second child. -/
structure MergeCfg where
  s1Pre : KeyC
  s2Pre : Option KeyC
deriving DecidableEq, Repr

/-- Errors a merge-pipe fetch can produce or forward. -/
inductive MergeErr where
  | pipeError (msg : String)
  | childError (msg : String)
deriving DecidableEq, Repr

/-- Model of `MergePipe::get_object` for `SnapshotPath` snapshots
(src/merge_pipe.rs, lines 106-124).  The children's `get_object` are
passed in as functions. -/
def mergeGetObject {Obj : Type} (cfg : MergeCfg)
    (s1get s2get : SnapshotPathM → Except MergeErr Obj)
    (snap : SnapshotPathM) : Except MergeErr Obj :=
  match stripPre (cfg.s1Pre ++ ['/']) snap.key with
  | some k => s1get ⟨k, snap.force⟩
  | none =>
    match cfg.s2Pre with
    | some pre2 =>
      match stripPre (pre2 ++ ['/']) snap.key with
      | some k => s2get ⟨k, snap.force⟩
      | none => .error (.pipeError "unexpected prefix")
    | none => s2get snap

end MirrorClone.MergePipe

namespace MirrorClone.FileBackend

/-- Errors of the filesystem target model. -/
inductive FsErr where
  | ioNotFound
deriving DecidableEq, Repr

/-- Model of `FileBackend::delete_object` (src/file_backend.rs, lines
102-106): `tokio::fs::remove_file(format!("{}/{}", base_path, key))?`.
The disk is the list of existing file paths; `remove_file` on a missing
path fails with a not-found IO error, which `?` propagates. -/
def deleteObject (disk : List String) (basePath key : String) :
    Except FsErr Unit × List String :=
  let target := basePath ++ "/" ++ key
  if target ∈ disk then (.ok (), disk.erase target)
  else (.error .ioNotFound, disk)

end MirrorClone.FileBackend

namespace MirrorClone.Overlay

/-- Model of `OverlayFile` (overlay/src/lib.rs): final path, temp path,
and the optional open file handle (present iff neither `commit` nor a
previous drop has taken it). -/
structure OverlayFileM where
  path : String
  tmp_path : String
  file : Option Unit
deriving DecidableEq, Repr

/-- Outcome of running a piece of Rust code that may abort the process. -/
inductive DropRes where
  | ok
  | panicked
deriving DecidableEq, Repr

/-- Model of `impl Drop for OverlayFile` (overlay/src/lib.rs, lines
201-208): if the handle is still present, drop it and
`std::fs::remove_file(&self.tmp_path).unwrap()` — a failing unlink
panics.  Removal fails iff the temp path is not on disk. -/
def dropOverlayFile (f : OverlayFileM) (disk : List String) :
    DropRes × List String :=
  match f.file with
  | some _ =>
    if f.tmp_path ∈ disk then (.ok, disk.erase f.tmp_path)
    else (.panicked, disk)
  | none => (.ok, disk)

/-- Replace-or-append insertion into an association list, the model of
`HashMap::insert` on the overlay's known-files map. -/
def insertA : List (String × Bool) → String → Bool → List (String × Bool)
  | [], p, b => [(p, b)]
  | (q, c) :: rest, p, b =>
    if q = p then (p, b) :: rest else (q, c) :: insertA rest p b

/-- Lookup in the known-files association list. -/
def lookupA : List (String × Bool) → String → Option Bool
  | [], _ => none
  | (q, c) :: rest, p => if q = p then some c else lookupA rest p

/-- Model of `OverlayFile::commit` (overlay/src/lib.rs, lines 187-194):
insert `(path, fused = true)` into the shared map, drop the handle, then
rename the temp file over the final path; the rename's success is the
`renameOk` parameter and its failure is returned as an error *after* the
map was already updated. -/
def commitFile (f : OverlayFileM) (fused : List (String × Bool))
    (renameOk : Bool) : (Except Unit Unit) × List (String × Bool) :=
  let fused' := insertA fused f.path true
  if renameOk then (.ok (), fused') else (.error (), fused')

/-- Model of `OverlayDirectory::commit` (overlay/src/lib.rs, lines
129-136): walk the known-files map and unlink every entry that is not
fused; a failing unlink (missing file) aborts the walk with the error.
Returns the outcome together with the disk as left behind. -/
def dirCommit : List (String × Bool) → List String →
    (Except Unit Unit) × List String
  | [], disk => (.ok (), disk)
  | (p, fused) :: rest, disk =>
    if fused then dirCommit rest disk
    else if p ∈ disk then dirCommit rest (disk.erase p)
    else (.error (), disk)

end MirrorClone.Overlay

namespace MirrorClone.StreamPipe

/-- Error kinds a byte-stream fetch can produce (src/error.rs), restricted
to the variants `ByteStreamPipe::get_object` can return.  `pipeError`
messages keep the static part of the Rust format string. -/
inductive StreamErr where
  | network
  | httpStatus (code : Nat)
  | ioError
  | pipeError (msg : String)
deriving DecidableEq, Repr

/-- Outcome of a Rust async call: a value, a returned error, a process
abort (`unwrap` on `None`), or cancellation of the future mid-await. -/
inductive FetchRes (α : Type) where
  | ok (a : α)
  | err (e : StreamErr)
  | panicked
  | cancelled
deriving DecidableEq, Repr

/-- Model of `ByteObject` (src/stream_pipe.rs, lines 25-30): the optional
open handle and the optional owned path of the scratch file. -/
structure ByteObjectM where
  file : Option Unit
  path : Option String
deriving DecidableEq, Repr

/-- Model of `ByteStream` (src/stream_pipe.rs, lines 69-73). -/
structure ByteStreamM where
  object : ByteObjectM
  length : Nat
  modified_at : Nat
deriving DecidableEq, Repr

/-- One event of the HTTP body stream: a chunk of `n` bytes arrives, the
stream yields an error, or the surrounding future is cancelled at this
await point. -/
inductive ChunkEv where
  | bytes (n : Nat)
  | fail
  | cancel
deriving DecidableEq, Repr

/-- Environment of one `get_object` call: what the inner source, the
filesystem and the HTTP response do.  `header` is `none` when the
response carries no Last-Modified header, `some none` when the header is
present but not RFC 2822, and `some (some t)` when it parses to `t`. -/
structure Env where
  innerResult : Except StreamErr String
  openOk : Bool
  sendOk : Bool
  status : Nat
  contentLength : Option Nat
  header : Option (Option Nat)
  chunks : List ChunkEv
  flushOk : Bool
  scratchPath : String

/-- Model of the body-download loop of `ByteStreamPipe::get_object`
(src/stream_pipe.rs, lines 182-187): returns an early outcome (stream
error or cancellation) or the final byte count. -/
def streamLoop : List ChunkEv → Nat → Option (FetchRes ByteStreamM) × Nat
  | [], total => (none, total)
  | .bytes n :: rest, total => streamLoop rest (total + n)
  | .fail :: _, total => (some (.err .network), total)
  | .cancel :: _, total => (some .cancelled, total)

/-- The snapshot mtime and the parsed header are both present and
disagree (src/stream_pipe.rs, lines 169-178). -/
def modifiedMismatch : Option Nat → Option Nat → Bool
  | some s, some h => s ≠ h
  | _, _ => false

/-- The response advertised a content length and the byte count disagrees
(src/stream_pipe.rs, lines 189-196). -/
def lengthMismatch : Option Nat → Nat → Bool
  | some cl, total => total ≠ cl
  | none, _ => false

/-- Model of `ByteStreamPipe::get_object` (src/stream_pipe.rs, lines
120-212).  The returned Bool tells whether the scratch file exists on
disk at the moment the call returns (or aborts, or is cancelled).  Note
the `unwrap` on the Last-Modified header lookup: a response without that
header aborts the process. -/
def getObject (trustSnapshotMtime : Bool) (snapMtime : Option Nat)
    (env : Env) : FetchRes ByteStreamM × Bool :=
  match env.innerResult with
  | .error e => (.err e, false)
  | .ok _url =>
    if !env.openOk then (.err .ioError, false)
    else if !env.sendOk then (.err .network, true)
    else if !(200 ≤ env.status && env.status ≤ 299) then
      (.err (.httpStatus env.status), true)
    else
      match env.header with
      | none => (.panicked, true)
      | some httpModified =>
        match (if trustSnapshotMtime then snapMtime else httpModified) with
        | none => (.err (.pipeError "no modified time"), true)
        | some m =>
          if modifiedMismatch snapMtime httpModified then
            (.err (.pipeError "mismatch modified time"), true)
          else
            match streamLoop env.chunks 0 with
            | (some early, _) => (early, true)
            | (none, total) =>
              if lengthMismatch env.contentLength total then
                (.err (.pipeError "content length mismatch"), true)
              else if !env.flushOk then (.err .ioError, true)
              else
                (.ok ⟨⟨some (), some env.scratchPath⟩, total, m⟩, true)

/-- Model of `impl Drop for ByteObject` (src/stream_pipe.rs, lines
53-67): when the object still owns a path, the scratch file is removed
(a failed removal is only logged); otherwise the disk is untouched. -/
def dropByteObject (obj : ByteObjectM) (scratchOnDisk : Bool) : Bool :=
  match obj.path with
  | some _ => false
  | none => scratchOnDisk

end MirrorClone.StreamPipe

namespace MirrorClone.ChecksumPipe

open MirrorClone.Meta

/-- Error kinds of the checksum pipe (src/error.rs variants reachable
from `ChecksumPipe::get_object`). -/
inductive ChkErr where
  | ioError (msg : String)
  | checksumError (method expected got : String)
  | childError (msg : String)
deriving DecidableEq, Repr

/-- A local scratch file: its byte contents and the current stream
position. -/
structure FileM where
  bytes : List Nat
  pos : Nat
deriving DecidableEq, Repr

/-- Model of `ByteObject` as the checksum pipe sees it: either an open
handle, or only a path, or neither. -/
structure ByteObjectC where
  file : Option FileM
  path : Option String
deriving DecidableEq, Repr

/-- Model of `ByteStream` for the checksum pipe. -/
structure ByteStreamC where
  object : ByteObjectC
  length : Nat
  modified_at : Nat
deriving DecidableEq, Repr

/-- Model of `calc_checksum` (src/checksum_pipe.rs, lines 26-42): record
the current position, dispatch on the method — only "sha256" is
implemented, every other method is an unsupported-method IO error — then
seek back to the recorded position.  The digest function itself (the
sha2 crate) is the parameter `h`. -/
def calcChecksum (h : List Nat → String) (f : FileM) (method : String) :
    Except ChkErr (String × FileM) :=
  let origPos := f.pos
  if method = "sha256" then
    .ok (h (f.bytes.drop origPos), { f with pos := origPos })
  else
    .error (.ioError "unsupported checksum method")

/-- Model of `ChecksumPipe::get_object` (src/checksum_pipe.rs, lines
79-113).  `disk` resolves a path to file contents for the
open-by-path branch; `inner` is the wrapped source's result. -/
def getObject (h : List Nat → String) (disk : String → Option (List Nat))
    (snap : SnapshotMeta) (inner : Except ChkErr ByteStreamC) :
    Except ChkErr ByteStreamC :=
  match inner with
  | .error e => .error e
  | .ok source =>
    match snap.checksum_method, snap.checksum with
    | some method, some expected =>
      let gotRes : Except ChkErr (String × ByteObjectC) :=
        match source.object.file, source.object.path with
        | some f, p =>
          match calcChecksum h f method with
          | .ok (g, f') => .ok (g, ⟨some f', p⟩)
          | .error e => .error e
        | none, some path =>
          match disk path with
          | some contents =>
            match calcChecksum h ⟨contents, 0⟩ method with
            | .ok (g, _) => .ok (g, source.object)
            | .error e => .error e
          | none => .error (.ioError "open failed")
        | none, none => .error (.ioError "data missing")
      match gotRes with
      | .error e => .error e
      | .ok (got, obj') =>
        if expected ≠ got then .error (.checksumError method expected got)
        else .ok { source with object := obj' }
    | _, _ => .ok source

/-- Spec-side: the outcomes the checksum-pipe claim allows for a snapshot
that carries a checksum — pass-through success or a checksum mismatch. -/
def okOrChecksumMismatch : Except ChkErr ByteStreamC → Prop
  | .ok _ => True
  | .error (.checksumError _ _ _) => True
  | _ => False

end MirrorClone.ChecksumPipe

namespace MirrorClone.IndexPipe

open MirrorClone

/-- One path component of a snapshot key (a maximal slash-free piece of
the Rust string). -/
abbrev Component := List Char

/-- A snapshot key as its list of '/'-separated components.  Splitting a
Rust string at every '/' is a bijection onto nonempty component lists,
and `split_once('/')` corresponds to head/tail of that list. -/
abbrev KeyL := List Component

/-- Rejoin components with '/', the inverse of splitting. -/
def joinK : KeyL → List Char
  | [] => []
  | [c] => c
  | c :: rest => c ++ '/' :: joinK rest

/-- Model of `Index` (src/index_pipe.rs, lines 25-29): a `BTreeMap` of
child directories, as a key-sorted association list, and a `BTreeSet` of
object names. -/
inductive Idx : Type where
  | mk : List (Component × Idx) → List (List Char) → Idx

/-- The child-directory map of an index node. -/
def Idx.prefs : Idx → List (Component × Idx)
  | .mk ps _ => ps

/-- The object-name set of an index node. -/
def Idx.objs : Idx → List (List Char)
  | .mk _ os => os

/-- Model of `Index::new`. -/
def emptyIdx : Idx := .mk [] []

/-- Model of `BTreeMap::get` on the child map (keys are unique). -/
def getPre : List (Component × Idx) → Component → Option Idx
  | [], _ => none
  | (k, v) :: rest, c => if k = c then some v else getPre rest c

/-- Model of `BTreeMap::insert`/`entry().or_insert_with` result on the
child map: insert at the sorted position, replacing an equal key. -/
def setPre : List (Component × Idx) → Component → Idx → List (Component × Idx)
  | [], c, v => [(c, v)]
  | (k, w) :: rest, c, v =>
    match cmpK c k with
    | .lt => (c, v) :: (k, w) :: rest
    | .eq => (c, v) :: rest
    | .gt => (k, w) :: setPre rest c v

/-- Model of `BTreeSet::insert` on the object-name set. -/
def addObj : List (List Char) → List Char → List (List Char)
  | [], s => [s]
  | x :: rest, s =>
    match cmpK s x with
    | .lt => s :: x :: rest
    | .eq => x :: rest
    | .gt => x :: addObj rest s

/-- Model of `Index::insert` (src/index_pipe.rs, lines 39-55): at depth 0
the remaining path is flattened into an object name; otherwise a key with
more than one component descends into (or creates) the child named by its
head, and a single-component key becomes an object. -/
def insertC (path : KeyL) (d : Nat) (idx : Idx) : Idx :=
  if d = 0 then .mk idx.prefs (addObj idx.objs (joinK path))
  else
    match path with
    | [] => .mk idx.prefs (addObj idx.objs [])
    | [c] => .mk idx.prefs (addObj idx.objs c)
    | c :: rest =>
      let child := (getPre idx.prefs c).getD emptyIdx
      .mk (setPre idx.prefs c (insertC rest (d - 1) child)) idx.objs
termination_by path.length

/-- Model of `generate_index` (src/index_pipe.rs, lines 182-188). -/
def generateIdx (objects : List KeyL) (maxDepth : Nat) : Idx :=
  objects.foldl (fun idx k => insertC k maxDepth idx) emptyIdx

mutual

/-- Model of `Index::snapshot` (src/index_pipe.rs, lines 57-65): emit the
listing key of this node, then recurse into every child in map order with
the child's name appended to the directory path. -/
def snapC (idx : Idx) (pre : KeyL) (listKey : Component) : List KeyL :=
  match idx with
  | .mk ps _ => (pre ++ [listKey]) :: snapL ps pre listKey

/-- The child-map part of `Index::snapshot`. -/
def snapL (ps : List (Component × Idx)) (pre : KeyL) (listKey : Component) :
    List KeyL :=
  match ps with
  | [] => []
  | (c, child) :: rest => snapC child (pre ++ [c]) listKey ++ snapL rest pre listKey

end

mutual

/-- The directory paths of every node of an index, root first. -/
def nodePaths (idx : Idx) : List KeyL :=
  match idx with
  | .mk ps _ => [] :: nodePathsL ps

/-- The directory paths contributed by a child map. -/
def nodePathsL (ps : List (Component × Idx)) : List KeyL :=
  match ps with
  | [] => []
  | (c, child) :: rest => (nodePaths child).map (c :: ·) ++ nodePathsL rest

end

/-- Well-formedness of the model of a `BTreeMap`-backed index: child keys
are strictly sorted (hence unique) and children are well formed. -/
inductive WFi : Idx → Prop where
  | mk : ∀ ps os, List.Pairwise (fun a b => cmpK a.1 b.1 = .lt) ps →
      (∀ e ∈ ps, WFi e.2) → WFi (.mk ps os)

/-- Rust `Vec::dedup`: remove consecutive repeats, keeping the first of
each run. -/
def dedupConsec {β : Type} [DecidableEq β] : List β → List β
  | [] => []
  | [a] => [a]
  | a :: b :: rest =>
    if b = a then dedupConsec (a :: rest) else a :: dedupConsec (b :: rest)

/-- Rust `Vec::sort` on keys, ordering component lists by their rejoined
string just as the Rust code sorts the key strings. -/
def sortKeysJ (l : List KeyL) : List KeyL :=
  l.mergeSort (fun a b => leK (joinK a) (joinK b))

/-- The sentinel file name `mirror_clone_list.html` (src/index_pipe.rs,
line 16). -/
def listC : Component :=
  ['m','i','r','r','o','r','_','c','l','o','n','e','_','l','i','s','t',
   '.','h','t','m','l']

/-- Model of `IndexPipe::snapshot_index_keys` (src/index_pipe.rs, lines
201-208): sort and dedup the child's keys, build the index up to the
configured max depth, and list one synthetic key per directory. -/
def snapshotIndexKeys (snapshot : List KeyL) (maxDepth : Nat) : List KeyL :=
  snapC (generateIdx (dedupConsec (sortKeysJ snapshot)) maxDepth) [] listC

/-- Model of `SnapshotMeta` with the key in component form, as the index
pipe's `SnapshotStorage<SnapshotMeta>` instance handles it. -/
structure SnapshotMetaL where
  key : KeyL := []
  size : Option Nat := none
  last_modified : Option Nat := none
  checksum_method : Option String := none
  checksum : Option String := none
  flags : Meta.SnapshotMetaFlag := {}
deriving DecidableEq, Repr

/-- Model of `SnapshotMeta::force` over component keys. -/
def SnapshotMetaL.force (key : KeyL) : SnapshotMetaL :=
  { key := key, flags := { force := true, force_last := true } }

/-- Model of the index pipe's Enumerate for `SnapshotMeta`
(src/index_pipe.rs, lines 233-253): the child's snapshot followed by the
synthetic listing keys, each marked `force` + `force_last`. -/
def enumerateMeta (src : List SnapshotMetaL) (maxDepth : Nat) :
    List SnapshotMetaL :=
  src ++ (snapshotIndexKeys (src.map (·.key)) maxDepth).map SnapshotMetaL.force

/-- Spec-side: `p` is a directory prefix of some key of `K` (a proper
nonempty prefix at a component boundary) of length at most `maxDepth`. -/
def IsDirPre (K : List KeyL) (maxDepth : Nat) (p : KeyL) : Prop :=
  p ≠ [] ∧ p.length ≤ maxDepth ∧ ∃ k ∈ K, p <+: k ∧ p.length < k.length

end MirrorClone.IndexPipe

namespace MirrorClone.Engine

open MirrorClone

variable {α : Type}

/-- Model of `sort_by(|a, b| a.key().cmp(b.key()))`
(src/simple_diff_transfer.rs, lines 167-181): a stable sort by key. -/
def sortByKey (key : α → KeyC) (l : List α) : List α :=
  l.mergeSort (fun a b => leK (key a) (key b))

/-- Model of `dedup_by(|a, b| a.key().eq(b.key()))`: drop an element
whose key equals the key of the element last kept. -/
def dedupByKey (key : α → KeyC) : List α → List α
  | [] => []
  | [a] => [a]
  | a :: b :: rest =>
    if key b = key a then dedupByKey key (a :: rest)
    else a :: dedupByKey key (b :: rest)

/-- The canonical snapshot vector of the engine: sorted by key, then
deduplicated by key. -/
def canonicalize (key : α → KeyC) (l : List α) : List α :=
  dedupByKey key (sortByKey key l)

/-- Model of `iter_set::Inclusion`. -/
inductive Incl (α : Type) where
  | left (a : α)
  | both (a b : α)
  | right (b : α)
deriving DecidableEq, Repr

/-- Model of `iter_set::classify_by` on two key-sorted deduplicated
vectors: the standard three-way merge. -/
def classifyBy (key : α → KeyC) : List α → List α → List (Incl α)
  | [], ts => ts.map .right
  | s :: ss, [] => (s :: ss).map .left
  | s :: ss, t :: ts =>
    match cmpK (key s) (key t) with
    | .lt => .left s :: classifyBy key ss (t :: ts)
    | .eq => .both s t :: classifyBy key ss ts
    | .gt => .right t :: classifyBy key (s :: ss) ts
termination_by ss ts => ss.length + ts.length

/-- Model of the classification loop of `SimpleDiffTransfer::transfer`
(src/simple_diff_transfer.rs, lines 213-245): source-only items and
differing both-sides items go to `updates` (the source copy), target-only
items go to `deletions`, in merge order. -/
def buildPlan (diff : α → α → Bool) : List (Incl α) → List α × List α
  | [] => ([], [])
  | .left s :: rest =>
    (s :: (buildPlan diff rest).1, (buildPlan diff rest).2)
  | .both s t :: rest =>
    (if diff s t then s :: (buildPlan diff rest).1 else (buildPlan diff rest).1,
      (buildPlan diff rest).2)
  | .right t :: rest =>
    ((buildPlan diff rest).1, t :: (buildPlan diff rest).2)

/-- Model of `sort_by_key(|snapshot| -snapshot.priority())`
(src/simple_diff_transfer.rs, lines 247-249). -/
def sortByPrio (prio : α → Int) (l : List α) : List α :=
  l.mergeSort (fun a b => -(prio a) ≤ -(prio b))

/-- Model of the plan-generation phase of `SimpleDiffTransfer::transfer`
(src/simple_diff_transfer.rs, lines 165-249): canonicalize both
snapshots, classify, and order each sub-plan by descending priority. -/
def transferPlan (key : α → KeyC) (diff : α → α → Bool) (prio : α → Int)
    (src tgt : List α) : List α × List α :=
  let plan := buildPlan diff
    (classifyBy key (canonicalize key src) (canonicalize key tgt))
  (sortByPrio prio plan.1, sortByPrio prio plan.2)

/-- Some element of `l` has key `k`. -/
abbrev hasKey (key : α → KeyC) (l : List α) (k : KeyC) : Prop :=
  ∃ a ∈ l, key a = k

end MirrorClone.Engine

namespace MirrorClone.Meta

theorem compareOption_false_iff {τ : Type} [DecidableEq τ] (x y : Option τ) :
    compareOption x y = false ↔ presentBothNe x y := by
  cases x <;> cases y <;> simp [compareOption, presentBothNe]

/-- C2: `SnapshotMeta::diff` returns true iff the force flag is set on
either side, or one of size, last_modified, checksum_method, checksum is
present on both sides with unequal values; a field absent on at least one
side never by itself makes diff return true. -/
theorem c2_diff_iff (a b : SnapshotMeta) :
    a.diff b = true ↔
      ((a.flags.force = true ∨ b.flags.force = true) ∨
        presentBothNe a.size b.size ∨
        presentBothNe a.last_modified b.last_modified ∨
        presentBothNe a.checksum_method b.checksum_method ∨
        presentBothNe a.checksum b.checksum) := by
  rw [SnapshotMeta.diff]
  rw [← compareOption_false_iff a.size b.size,
    ← compareOption_false_iff a.last_modified b.last_modified,
    ← compareOption_false_iff a.checksum_method b.checksum_method,
    ← compareOption_false_iff a.checksum b.checksum]
  cases h1 : compareOption a.size b.size <;>
    cases h2 : compareOption a.last_modified b.last_modified <;>
      cases h3 : compareOption a.checksum_method b.checksum_method <;>
        cases h4 : compareOption a.checksum b.checksum <;>
          cases h5 : a.flags.force <;> cases h6 : b.flags.force <;> simp

/-- C2 witness: a pair where only the source's force flag is set is
classified as different. -/
theorem c2_diff_witness :
    SnapshotMeta.diff { flags := { force := true } } {} = true :=
  (c2_diff_iff _ _).mpr (Or.inl (Or.inl rfl))

end MirrorClone.Meta

namespace MirrorClone.FileBackend

/-- C8 counterexample: deleting a key whose file is absent does not
return success — `remove_file` fails with not-found and `?` propagates
it. -/
theorem c8_counterexample :
    (deleteObject [] "base" "k").1 = .error .ioNotFound ∧
      (deleteObject [] "base" "k").1 ≠ .ok () := by
  refine ⟨by simp [deleteObject], ?_⟩
  intro h
  simp [deleteObject] at h

/-- C8 (amended): `delete_object` unlinks `base/<key>` and succeeds when
the file exists; when the file does not exist it returns the not-found
IO error instead of success. -/
theorem c8_delete (disk : List String) (basePath key : String) :
    (basePath ++ "/" ++ key ∈ disk →
      deleteObject disk basePath key =
        (.ok (), disk.erase (basePath ++ "/" ++ key))) ∧
    (basePath ++ "/" ++ key ∉ disk →
      deleteObject disk basePath key = (.error .ioNotFound, disk)) := by
  unfold deleteObject
  constructor
  · intro h
    simp [h]
  · intro h
    simp [h]

/-- C8 witness: deleting an existing file removes it and succeeds. -/
theorem c8_delete_witness :
    deleteObject ["base/k"] "base" "k" = (.ok (), []) := by
  have h := (c8_delete ["base/k"] "base" "k").1 (by decide)
  simpa using h

end MirrorClone.FileBackend

namespace MirrorClone.Overlay

/-- C9 counterexample: dropping an uncommitted `OverlayFile` whose temp
file cannot be unlinked (it is not on disk) aborts via `unwrap` instead
of logging and continuing. -/
theorem c9_counterexample :
    (dropOverlayFile ⟨"f", "f.tmp", some ()⟩ []).1 = .panicked := by decide

/-- C9 (amended): dropping a never-committed `OverlayFile` unlinks its
temporary file when the unlink succeeds; when the unlink fails, the drop
panics (the removal result is `unwrap`ped) rather than logging and
continuing. -/
theorem c9_drop (f : OverlayFileM) (disk : List String)
    (hfile : f.file = some ()) :
    (f.tmp_path ∈ disk →
      dropOverlayFile f disk = (.ok, disk.erase f.tmp_path)) ∧
    (f.tmp_path ∉ disk → dropOverlayFile f disk = (.panicked, disk)) := by
  unfold dropOverlayFile
  rw [hfile]
  constructor
  · intro h
    simp [h]
  · intro h
    simp [h]

/-- C9 witness: a successful drop removes the temp file and returns
normally. -/
theorem c9_drop_witness :
    dropOverlayFile ⟨"f", "f.tmp", some ()⟩ ["f.tmp"] = (.ok, []) := by
  have h := (c9_drop ⟨"f", "f.tmp", some ()⟩ ["f.tmp"] rfl).1 (by decide)
  simpa using h

theorem lookupA_insertA_self (m : List (String × Bool)) (p : String)
    (b : Bool) : lookupA (insertA m p b) p = some b := by
  induction m with
  | nil => simp [insertA, lookupA]
  | cons e rest ih =>
    obtain ⟨q, c⟩ := e
    by_cases h : q = p
    · subst h
      simp [insertA, lookupA]
    · simp [insertA, lookupA, h, ih]

theorem insertA_true_entries (m : List (String × Bool)) (p : String)
    (hnd : (m.map Prod.fst).Nodup) :
    ∀ c, (p, c) ∈ insertA m p true → c = true := by
  induction m with
  | nil =>
    intro c hc
    simpa [insertA] using hc
  | cons e rest ih =>
    obtain ⟨q, d⟩ := e
    simp only [List.map_cons, List.nodup_cons] at hnd
    intro c hc
    by_cases h : q = p
    · subst h
      simp only [insertA, if_pos rfl] at hc
      rcases List.mem_cons.mp hc with h1 | h1
      · exact (Prod.mk.injEq _ _ _ _).mp h1 |>.2.symm ▸ rfl
      · exact absurd (List.mem_map_of_mem Prod.fst h1) hnd.1
    · simp only [insertA, if_neg h] at hc
      rcases List.mem_cons.mp hc with h1 | h1
      · exact absurd ((Prod.mk.injEq _ _ _ _).mp h1).1.symm h
      · exact ih hnd.2 c h1

theorem dirCommit_keeps (m : List (String × Bool)) (disk : List String)
    (p : String) (hall : ∀ c, (p, c) ∈ m → c = true) (hmem : p ∈ disk) :
    p ∈ (dirCommit m disk).2 := by
  induction m generalizing disk with
  | nil => simpa [dirCommit]
  | cons e rest ih =>
    obtain ⟨q, fused⟩ := e
    cases fused with
    | true =>
      simp only [dirCommit, if_pos rfl]
      exact ih disk (fun c hc => hall c (List.mem_cons_of_mem _ hc)) hmem
    | false =>
      have hqp : q ≠ p := by
        intro h
        exact Bool.noConfusion (hall false (h ▸ List.mem_cons_self _ _))
      simp only [dirCommit, Bool.false_eq_true, if_false]
      by_cases hq : q ∈ disk
      · simp only [if_pos hq]
        exact ih (disk.erase q) (fun c hc => hall c (List.mem_cons_of_mem _ hc))
          ((List.mem_erase_of_ne (fun h => hqp h.symm)).mpr hmem)
      · simpa [if_neg hq]

/-- C10: `OverlayFile::commit` marks the final path fused in the shared
map before attempting the rename, so even when the rename fails and
commit returns an error, the entry reads `fused = true` and the
directory-level commit sweep does not unlink that final path. -/
theorem c10_commit_fuses_before_rename (f : OverlayFileM)
    (fused : List (String × Bool)) (renameOk : Bool) (disk : List String)
    (hnd : (fused.map Prod.fst).Nodup) (hdisk : f.path ∈ disk) :
    lookupA (commitFile f fused renameOk).2 f.path = some true ∧
    (renameOk = false → (commitFile f fused renameOk).1 = .error ()) ∧
    f.path ∈ (dirCommit (commitFile f fused renameOk).2 disk).2 := by
  have hsnd : (commitFile f fused renameOk).2 = insertA fused f.path true := by
    unfold commitFile
    cases renameOk <;> simp
  refine ⟨?_, ?_, ?_⟩
  · rw [hsnd]
    exact lookupA_insertA_self fused f.path true
  · intro h
    subst h
    unfold commitFile
    simp
  · rw [hsnd]
    exact dirCommit_keeps _ disk f.path
      (insertA_true_entries fused f.path hnd) hdisk

/-- C10 witness: with an empty map, a failing rename and the final path
on disk, commit returns the error yet the path stays fused and survives
the sweep. -/
theorem c10_commit_witness :
    lookupA (commitFile ⟨"a", "a.tmp", some ()⟩ [] false).2 "a" = some true ∧
    (commitFile ⟨"a", "a.tmp", some ()⟩ [] false).1 = .error () ∧
    "a" ∈ (dirCommit (commitFile ⟨"a", "a.tmp", some ()⟩ [] false).2 ["a"]).2 := by
  have h := c10_commit_fuses_before_rename ⟨"a", "a.tmp", some ()⟩ [] false
    ["a"] (by decide) (by decide)
  exact ⟨h.1, h.2.1 rfl, h.2.2⟩

end MirrorClone.Overlay

namespace MirrorClone.MergePipe

theorem stripPre_append (p s : MirrorClone.KeyC) :
    stripPre p (p ++ s) = some s := by
  induction p with
  | nil => rfl
  | cons a p ih => simp [stripPre, ih]

/-- C7 (amended): a key led by the first child's prefix plus '/' is
dispatched, stripped, to the first child; a key led (only) by the second
child's configured prefix plus '/' is dispatched, stripped, to the second
child; a key led by neither fails with the unexpected-prefix error when
the second child has a prefix configured, and is passed *unchanged* to
the second child when it has none. -/
theorem c7_merge_route {Obj : Type} (cfg : MergeCfg)
    (s1get s2get : SnapshotPathM → Except MergeErr Obj)
    (snap : SnapshotPathM) :
    (∀ k, snap.key = cfg.s1Pre ++ '/' :: k →
      mergeGetObject cfg s1get s2get snap = s1get ⟨k, snap.force⟩) ∧
    (∀ pre2 k, cfg.s2Pre = some pre2 →
      stripPre (cfg.s1Pre ++ ['/']) snap.key = none →
      snap.key = pre2 ++ '/' :: k →
      mergeGetObject cfg s1get s2get snap = s2get ⟨k, snap.force⟩) ∧
    (∀ pre2, cfg.s2Pre = some pre2 →
      stripPre (cfg.s1Pre ++ ['/']) snap.key = none →
      stripPre (pre2 ++ ['/']) snap.key = none →
      mergeGetObject cfg s1get s2get snap =
        .error (.pipeError "unexpected prefix")) ∧
    (cfg.s2Pre = none →
      stripPre (cfg.s1Pre ++ ['/']) snap.key = none →
      mergeGetObject cfg s1get s2get snap = s2get snap) := by
  refine ⟨?_, ?_, ?_, ?_⟩
  · intro k hk
    have h : stripPre (cfg.s1Pre ++ ['/']) snap.key = some k := by
      rw [hk, show cfg.s1Pre ++ '/' :: k = (cfg.s1Pre ++ ['/']) ++ k by simp]
      exact stripPre_append _ _
    simp [mergeGetObject, h]
  · intro pre2 k h2 h1 hk
    have h : stripPre (pre2 ++ ['/']) snap.key = some k := by
      rw [hk, show pre2 ++ '/' :: k = (pre2 ++ ['/']) ++ k by simp]
      exact stripPre_append _ _
    simp [mergeGetObject, h1, h2, h]
  · intro pre2 h2 h1 h
    simp [mergeGetObject, h1, h2, h]
  · intro h2 h1
    simp [mergeGetObject, h1, h2]

/-- C7 witness: with child namespaces "a" and "b", the key "a/x" goes to
the first child as "x", and the key "b/x" goes to the second child as
"x". -/
theorem c7_merge_route_witness :
    mergeGetObject ⟨['a'], some ['b']⟩
      (fun s => .ok s) (fun _ => .error (.childError "two"))
      ⟨['a', '/', 'x'], false⟩ = .ok ⟨['x'], false⟩ ∧
    mergeGetObject ⟨['a'], some ['b']⟩
      (fun _ => .error (.childError "one")) (fun s => .ok s)
      ⟨['b', '/', 'x'], true⟩ = .ok ⟨['x'], true⟩ := by
  constructor
  · have h := (c7_merge_route ⟨['a'], some ['b']⟩
      (fun s => .ok s) (fun _ => .error (.childError "two"))
      ⟨['a', '/', 'x'], false⟩).1 ['x'] rfl
    simpa using h
  · have h := (c7_merge_route ⟨['a'], some ['b']⟩
      (fun _ => .error (.childError "one")) (fun s => .ok s)
      ⟨['b', '/', 'x'], true⟩).2.1 ['b'] ['x'] rfl (by decide) rfl
    simpa using h

/-- C7 counterexample: when the second child has no prefix configured, a
key that begins with no configured prefix is not rejected with the
unexpected-prefix error — it is forwarded to the second child whole. -/
theorem c7_counterexample :
    mergeGetObject ⟨['a'], none⟩ (fun s => .ok s) (fun s => .ok s)
      ⟨['b'], false⟩ = .ok ⟨['b'], false⟩ ∧
    mergeGetObject ⟨['a'], none⟩ (fun s => .ok s) (fun s => .ok s)
      ⟨['b'], false⟩ ≠ .error (.pipeError "unexpected prefix") := by
  constructor
  · rfl
  · intro h
    exact Except.noConfusion h

end MirrorClone.MergePipe

namespace MirrorClone.ChecksumPipe

/-- C3 counterexample: a snapshot carrying the spec-listed method tag
"md5" is not digested and does not yield `ChecksumMismatch` — the pipe
fails with an unsupported-method IO error instead. -/
theorem c3_counterexample :
    getObject (fun _ => "") (fun _ => none)
      { key := [], checksum_method := some "md5",
        checksum := some "d41d8cd98f00b204e9800998ecf8427e" }
      (.ok ⟨⟨some ⟨[], 0⟩, none⟩, 0, 0⟩) =
      .error (.ioError "unsupported checksum method") ∧
    ¬ okOrChecksumMismatch
      (getObject (fun _ => "") (fun _ => none)
        { key := [], checksum_method := some "md5",
          checksum := some "d41d8cd98f00b204e9800998ecf8427e" }
        (.ok ⟨⟨some ⟨[], 0⟩, none⟩, 0, 0⟩)) := by
  constructor
  · rfl
  · intro h
    simpa [getObject, calcChecksum, okOrChecksumMismatch] using h

/-- C3 (amended): for a snapshot carrying method "sha256" and a checksum,
the pipe digests the fetched object's bytes from the current stream
position with sha256 and fails with `ChecksumMismatch{method, expected,
got}` exactly when the digest differs from the expected value; on
equality it returns the object with the stream position restored.
Snapshots lacking either field pass through unverified; a method other
than "sha256" yields the unsupported-method IO error; a failing inner
fetch is passed through. -/
theorem c3_checksum_enforcement (h : List Nat → String)
    (disk : String → Option (List Nat)) (snap : Meta.SnapshotMeta)
    (src : ByteStreamC) (f : FileM) (p : Option String) (exp : String) :
    (snap.checksum_method = some "sha256" → snap.checksum = some exp →
      src.object = ⟨some f, p⟩ →
      getObject h disk snap (.ok src) =
        (if exp = h (f.bytes.drop f.pos) then .ok src
         else .error (.checksumError "sha256" exp (h (f.bytes.drop f.pos))))) ∧
    (snap.checksum_method = none ∨ snap.checksum = none →
      getObject h disk snap (.ok src) = .ok src) ∧
    (∀ m, snap.checksum_method = some m → m ≠ "sha256" →
      snap.checksum = some exp → src.object = ⟨some f, p⟩ →
      getObject h disk snap (.ok src) =
        .error (.ioError "unsupported checksum method")) ∧
    (∀ e, getObject h disk snap (.error e) = .error e) := by
  refine ⟨?_, ?_, ?_, ?_⟩
  · intro hm hc hobj
    obtain ⟨obj, len, mt⟩ := src
    simp only at hobj
    subst hobj
    by_cases he : exp = h (f.bytes.drop f.pos) <;>
      simp [getObject, hm, hc, calcChecksum, he]
  · rintro (hm | hc)
    · simp [getObject, hm]
    · cases hm : snap.checksum_method <;> simp [getObject, hm, hc]
  · intro m hm hne hc hobj
    obtain ⟨obj, len, mt⟩ := src
    simp only at hobj
    subst hobj
    simp [getObject, hm, hc, calcChecksum, hne]
  · intro e
    simp [getObject]

/-- C3 witness: a sha256 snapshot whose digest matches passes through
unchanged; one whose digest differs fails with the mismatch error. -/
theorem c3_checksum_witness :
    getObject (fun l => if l = [7] then "aa" else "bb") (fun _ => none)
      { key := [], checksum_method := some "sha256", checksum := some "aa" }
      (.ok ⟨⟨some ⟨[7], 0⟩, some "x"⟩, 1, 5⟩) =
      .ok ⟨⟨some ⟨[7], 0⟩, some "x"⟩, 1, 5⟩ ∧
    getObject (fun l => if l = [7] then "aa" else "bb") (fun _ => none)
      { key := [], checksum_method := some "sha256", checksum := some "cc" }
      (.ok ⟨⟨some ⟨[7], 0⟩, some "x"⟩, 1, 5⟩) =
      .error (.checksumError "sha256" "cc" "aa") := by
  constructor
  · have hthm := (c3_checksum_enforcement (fun l => if l = [7] then "aa" else "bb")
      (fun _ => none)
      { key := [], checksum_method := some "sha256", checksum := some "aa" }
      ⟨⟨some ⟨[7], 0⟩, some "x"⟩, 1, 5⟩ ⟨[7], 0⟩ (some "x") "aa").1 rfl rfl rfl
    simpa using hthm
  · have hthm := (c3_checksum_enforcement (fun l => if l = [7] then "aa" else "bb")
      (fun _ => none)
      { key := [], checksum_method := some "sha256", checksum := some "cc" }
      ⟨⟨some ⟨[7], 0⟩, some "x"⟩, 1, 5⟩ ⟨[7], 0⟩ (some "x") "cc").1 rfl rfl rfl
    simpa using hthm

end MirrorClone.ChecksumPipe

namespace MirrorClone.StreamPipe

/-- C4: the byte-stream pipe's Last-Modified handling at the failing
input.  The claim says a Fetch with no snapshot mtime and no
Last-Modified header fails with the no-modified-time error rather than
crashing; the code instead `unwrap`s the absent header and aborts
before the mtime policy is ever evaluated. -/
theorem c4_missing_header_panics :
    getObject false none
      { innerResult := .ok "http://example.com/x", openOk := true,
        sendOk := true, status := 200, contentLength := none,
        header := none, chunks := [], flushOk := true,
        scratchPath := "buf/1.buffer" } = (.panicked, true) ∧
    getObject true (some 5)
      { innerResult := .ok "http://example.com/x", openOk := true,
        sendOk := true, status := 200, contentLength := none,
        header := none, chunks := [], flushOk := true,
        scratchPath := "buf/1.buffer" } = (.panicked, true) := by
  constructor <;> rfl

theorem streamLoop_cases (ch : List ChunkEv) (t : Nat) :
    (streamLoop ch t).1 = none ∨ (streamLoop ch t).1 = some (.err .network) ∨
      (streamLoop ch t).1 = some .cancelled := by
  induction ch generalizing t with
  | nil => exact Or.inl rfl
  | cons e rest ih =>
    cases e with
    | bytes n => exact ih (t + n)
    | fail => exact Or.inr (Or.inl rfl)
    | cancel => exact Or.inr (Or.inr rfl)

/-- C5 (amended): once the scratch file has been created (the inner URL
resolved and the open succeeded), it is still on disk whenever the call
returns — on success, on failure, on abort and on cancellation alike;
the pipe never unlinks it.  On success the returned `ByteObject` is the
handle owning the scratch path, and dropping it unlinks the file; on
failure or cancellation the partial file is simply left behind. -/
theorem c5_scratch_lifecycle (trust : Bool) (sm : Option Nat) (env : Env) :
    ((∃ u, env.innerResult = .ok u) → env.openOk = true →
      (getObject trust sm env).2 = true) ∧
    (∀ bs b, getObject trust sm env = (.ok bs, b) →
      b = true ∧ bs.object = ⟨some (), some env.scratchPath⟩ ∧
      dropByteObject bs.object b = false) := by
  obtain ⟨ir, op, sk, st, cl, hd, ch, fl, sp⟩ := env
  constructor
  · rintro ⟨u, hu⟩ hop
    subst hu
    subst hop
    simp only [getObject]
    repeat' split
    all_goals simp_all
  · intro bs b heq
    cases ir with
    | error e =>
      simp only [getObject] at heq
      simp at heq
    | ok u =>
      simp only [getObject] at heq
      have hsl := streamLoop_cases ch 0
      repeat' split at heq
      any_goals (exfalso; simp_all; done)
      cases heq
      simp [dropByteObject]

/-- C5 counterexample: a Fetch that fails (HTTP 404 after the scratch
file was created) returns with the scratch file still on disk — the
partial file is not unlinked before the call returns. -/
theorem c5_counterexample :
    getObject false none
      { innerResult := .ok "http://example.com/x", openOk := true,
        sendOk := true, status := 404, contentLength := none,
        header := none, chunks := [], flushOk := true,
        scratchPath := "buf/2.buffer" } =
      (.err (.httpStatus 404), true) := by rfl

/-- C5 witness: a successful Fetch leaves the scratch file on disk, owned
by the returned object, and dropping that object unlinks it. -/
theorem c5_scratch_witness :
    (getObject false none
      { innerResult := .ok "http://example.com/x", openOk := true,
        sendOk := true, status := 200, contentLength := some 3,
        header := some (some 7), chunks := [.bytes 3], flushOk := true,
        scratchPath := "buf/3.buffer" }).2 = true ∧
    dropByteObject ⟨some (), some "buf/3.buffer"⟩ true = false := by
  have h := c5_scratch_lifecycle false none
    { innerResult := .ok "http://example.com/x", openOk := true,
      sendOk := true, status := 200, contentLength := some 3,
      header := some (some 7), chunks := [.bytes 3], flushOk := true,
      scratchPath := "buf/3.buffer" }
  refine ⟨h.1 ⟨"http://example.com/x", rfl⟩ rfl, ?_⟩
  have h2 := h.2 ⟨⟨some (), some "buf/3.buffer"⟩, 3, 7⟩ true (by rfl)
  simpa using h2.2.2

end MirrorClone.StreamPipe

namespace MirrorClone

theorem charToNat_inj {a b : Char} (h : a.toNat = b.toNat) : a = b :=
  Char.ext (UInt32.ext h)

theorem cmpK_same (a : KeyC) : cmpK a a = .eq := by
  induction a with
  | nil => rfl
  | cons x xs ih => simp [cmpK, ih]

theorem cmpK_eq_iff : ∀ a b : KeyC, cmpK a b = .eq ↔ a = b := by
  intro a
  induction a with
  | nil =>
    intro b
    cases b <;> simp [cmpK]
  | cons x xs ih =>
    intro b
    cases b with
    | nil => simp [cmpK]
    | cons y ys =>
      simp only [cmpK]
      rcases Nat.lt_trichotomy x.toNat y.toNat with h | h | h
      · rw [if_pos h]
        constructor
        · intro h'
          cases h'
        · rintro ⟨⟩
          exact absurd h (Nat.lt_irrefl _)
      · rw [if_neg (by omega), if_neg (by omega)]
        rw [ih ys]
        constructor
        · intro h'
          rw [charToNat_inj h, h']
        · intro h'
          cases h'
          rfl
      · rw [if_neg (by omega), if_pos h]
        constructor
        · intro h'
          cases h'
        · rintro ⟨⟩
          exact absurd h (Nat.lt_irrefl _)

theorem cmpK_swap : ∀ a b : KeyC, cmpK b a = (cmpK a b).swap := by
  intro a
  induction a with
  | nil =>
    intro b
    cases b <;> rfl
  | cons x xs ih =>
    intro b
    cases b with
    | nil => rfl
    | cons y ys =>
      simp only [cmpK]
      rcases Nat.lt_trichotomy x.toNat y.toNat with h | h | h
      · rw [if_pos h, if_neg (by omega), if_pos h]
        rfl
      · rw [if_neg (by omega), if_neg (by omega), if_neg (by omega),
          if_neg (by omega)]
        exact ih ys
      · rw [if_pos h, if_neg (by omega), if_pos h]
        rfl

theorem cmpK_lt_trans :
    ∀ a b c : KeyC, cmpK a b = .lt → cmpK b c = .lt → cmpK a c = .lt := by
  intro a
  induction a with
  | nil =>
    intro b c hab hbc
    cases b with
    | nil => exact hbc
    | cons y ys =>
      cases c with
      | nil => cases hbc
      | cons z zs => rfl
  | cons x xs ih =>
    intro b c hab hbc
    cases b with
    | nil => cases hab
    | cons y ys =>
      cases c with
      | nil => cases hbc
      | cons z zs =>
        simp only [cmpK] at hab hbc ⊢
        rcases Nat.lt_trichotomy x.toNat y.toNat with h1 | h1 | h1 <;>
          rcases Nat.lt_trichotomy y.toNat z.toNat with h2 | h2 | h2
        · rw [if_pos (by omega)]
        · rw [if_pos (by omega)]
        · rw [if_neg (by omega), if_pos h2] at hbc
          cases hbc
        · rw [if_pos (by omega)]
        · rw [if_neg (by omega), if_neg (by omega)] at hab
          rw [if_neg (by omega), if_neg (by omega)] at hbc
          rw [if_neg (by omega), if_neg (by omega)]
          exact ih ys zs hab hbc
        · rw [if_neg (by omega), if_pos h2] at hbc
          cases hbc
        · rw [if_neg (by omega), if_pos h1] at hab
          cases hab
        · rw [if_neg (by omega), if_pos h1] at hab
          cases hab
        · rw [if_neg (by omega), if_pos h1] at hab
          cases hab

theorem leK_eq_true_iff : ∀ a b : KeyC, leK a b = true ↔ cmpK a b ≠ .gt := by
  intro a
  induction a with
  | nil =>
    intro b
    cases b <;> simp [leK, cmpK]
  | cons x xs ih =>
    intro b
    cases b with
    | nil => simp [leK, cmpK]
    | cons y ys =>
      simp only [leK, cmpK]
      rcases Nat.lt_trichotomy x.toNat y.toNat with h | h | h
      · rw [if_pos h, if_pos h]
        simp
      · rw [if_neg (by omega), if_neg (by omega), if_neg (by omega),
          if_neg (by omega)]
        exact ih ys
      · rw [if_neg (by omega), if_pos h, if_neg (by omega), if_pos h]
        simp

theorem cmpK_lt_ne {a b : KeyC} (h : cmpK a b = .lt) : a ≠ b := by
  intro heq
  subst heq
  rw [cmpK_same] at h
  cases h

theorem cmpK_lt_of_le_of_ne {a b : KeyC} (hle : leK a b = true) (hne : a ≠ b) :
    cmpK a b = .lt := by
  rcases hc : cmpK a b with _ | _ | _
  · rfl
  · exact absurd ((cmpK_eq_iff a b).mp hc) hne
  · exact absurd hc ((leK_eq_true_iff a b).mp hle)

theorem cmpK_lt_of_lt_of_le {a b c : KeyC} (h1 : cmpK a b = .lt)
    (h2 : leK b c = true) : cmpK a c = .lt := by
  rcases hc : cmpK b c with _ | _ | _
  · exact cmpK_lt_trans a b c h1 hc
  · rw [← (cmpK_eq_iff b c).mp hc]
    exact h1
  · exact absurd hc ((leK_eq_true_iff b c).mp h2)

theorem cmpK_lt_of_le_of_lt {a b c : KeyC} (h1 : leK a b = true)
    (h2 : cmpK b c = .lt) : cmpK a c = .lt := by
  rcases hc : cmpK a b with _ | _ | _
  · exact cmpK_lt_trans a b c hc h2
  · rw [(cmpK_eq_iff a b).mp hc]
    exact h2
  · exact absurd hc ((leK_eq_true_iff a b).mp h1)

theorem leK_trans {a b c : KeyC} (h1 : leK a b = true) (h2 : leK b c = true) :
    leK a c = true := by
  rw [leK_eq_true_iff] at *
  rcases hab : cmpK a b with _ | _ | _
  · intro hac
    rcases hbc : cmpK b c with _ | _ | _
    · rw [cmpK_lt_trans a b c hab hbc] at hac
      cases hac
    · rw [← (cmpK_eq_iff b c).mp hbc, hab] at hac
      cases hac
    · exact h2 hbc
  · rw [(cmpK_eq_iff a b).mp hab]
    exact h2
  · exact absurd hab h1

theorem leK_total (a b : KeyC) : (leK a b || leK b a) = true := by
  rcases hc : cmpK a b with _ | _ | _
  · have : leK a b = true := (leK_eq_true_iff a b).mpr (by rw [hc]; intro h; cases h)
    simp [this]
  · have : leK a b = true := (leK_eq_true_iff a b).mpr (by rw [hc]; intro h; cases h)
    simp [this]
  · have hba : cmpK b a = .lt := by
      rw [cmpK_swap a b, hc]
      rfl
    have : leK b a = true := (leK_eq_true_iff b a).mpr (by rw [hba]; intro h; cases h)
    simp [this]

theorem leK_of_lt {a b : KeyC} (h : cmpK a b = .lt) : leK a b = true := by
  rw [leK_eq_true_iff, h]
  intro h'
  cases h'

end MirrorClone

namespace MirrorClone.Engine

open MirrorClone

theorem mem_sortByKey (key : α → KeyC) (l : List α) (x : α) :
    x ∈ sortByKey key l ↔ x ∈ l :=
  List.mem_mergeSort

theorem pairwise_sortByKey (key : α → KeyC) (l : List α) :
    (sortByKey key l).Pairwise (fun a b => leK (key a) (key b) = true) := by
  have h := @List.sorted_mergeSort α (fun a b => leK (key a) (key b))
    (fun a b c h1 h2 => leK_trans h1 h2)
    (fun a b => leK_total (key a) (key b)) l
  exact h

theorem mem_of_mem_dedupByKey (key : α → KeyC) :
    ∀ l : List α, ∀ x, x ∈ dedupByKey key l → x ∈ l
  | [], x, hx => by simpa [dedupByKey] using hx
  | [a], x, hx => by simpa [dedupByKey] using hx
  | a :: b :: rest, x, hx => by
    rw [dedupByKey] at hx
    by_cases h : key b = key a
    · rw [if_pos h] at hx
      have hm := mem_of_mem_dedupByKey key (a :: rest) x hx
      rcases List.mem_cons.mp hm with h1 | h1
      · subst h1
        exact List.mem_cons_self _ _
      · exact List.mem_cons_of_mem _ (List.mem_cons_of_mem _ h1)
    · rw [if_neg h] at hx
      rcases List.mem_cons.mp hx with h1 | h1
      · subst h1
        exact List.mem_cons_self _ _
      · exact List.mem_cons_of_mem _ (mem_of_mem_dedupByKey key (b :: rest) x h1)
termination_by l => l.length

theorem hasKey_dedupByKey (key : α → KeyC) :
    ∀ l : List α, ∀ k, hasKey key (dedupByKey key l) k ↔ hasKey key l k
  | [], k => by simp [dedupByKey]
  | [a], k => by simp [dedupByKey]
  | a :: b :: rest, k => by
    rw [dedupByKey]
    by_cases h : key b = key a
    · rw [if_pos h]
      rw [hasKey_dedupByKey key (a :: rest) k]
      constructor
      · rintro ⟨x, hx, hk⟩
        rcases List.mem_cons.mp hx with h1 | h1
        · exact ⟨x, by simp [h1], hk⟩
        · exact ⟨x, by simp [h1], hk⟩
      · rintro ⟨x, hx, hk⟩
        rcases List.mem_cons.mp hx with h1 | h1
        · exact ⟨x, by simp [h1], hk⟩
        · rcases List.mem_cons.mp h1 with h2 | h2
          · subst h2
            exact ⟨a, List.mem_cons_self _ _, by rw [← hk, h]⟩
          · exact ⟨x, List.mem_cons_of_mem _ h2, hk⟩
    · rw [if_neg h]
      constructor
      · rintro ⟨x, hx, hk⟩
        rcases List.mem_cons.mp hx with h1 | h1
        · exact ⟨x, by simp [h1], hk⟩
        · have hm := (hasKey_dedupByKey key (b :: rest) k).mp ⟨x, h1, hk⟩
          rcases hm with ⟨y, hy, hyk⟩
          exact ⟨y, List.mem_cons_of_mem _ hy, hyk⟩
      · rintro ⟨x, hx, hk⟩
        rcases List.mem_cons.mp hx with h1 | h1
        · exact ⟨x, by simp [h1], hk⟩
        · have hm := (hasKey_dedupByKey key (b :: rest) k).mpr ⟨x, h1, hk⟩
          rcases hm with ⟨y, hy, hyk⟩
          exact ⟨y, List.mem_cons_of_mem _ hy, hyk⟩
termination_by l => l.length

theorem pairwise_lt_dedupByKey (key : α → KeyC) :
    ∀ l : List α, l.Pairwise (fun a b => leK (key a) (key b) = true) →
      (dedupByKey key l).Pairwise (fun a b => cmpK (key a) (key b) = .lt)
  | [], _ => by simp [dedupByKey]
  | [a], _ => by simp [dedupByKey]
  | a :: b :: rest, hp => by
    rw [dedupByKey]
    rcases List.pairwise_cons.mp hp with ⟨ha, hp'⟩
    rcases List.pairwise_cons.mp hp' with ⟨hb, hrest⟩
    by_cases h : key b = key a
    · rw [if_pos h]
      apply pairwise_lt_dedupByKey key (a :: rest)
      exact List.pairwise_cons.mpr
        ⟨fun y hy => ha y (List.mem_cons_of_mem _ hy), hrest⟩
    · rw [if_neg h]
      apply List.pairwise_cons.mpr
      refine ⟨?_, pairwise_lt_dedupByKey key (b :: rest) hp'⟩
      intro y hy
      have hyM := mem_of_mem_dedupByKey key (b :: rest) y hy
      have hab : cmpK (key a) (key b) = .lt :=
        cmpK_lt_of_le_of_ne (ha b (List.mem_cons_self _ _))
          (fun he => h he.symm)
      rcases List.mem_cons.mp hyM with h1 | h1
      · subst h1
        exact hab
      · exact cmpK_lt_of_lt_of_le hab (hb y h1)
termination_by l => l.length

theorem canonicalize_pairwise (key : α → KeyC) (l : List α) :
    (canonicalize key l).Pairwise (fun a b => cmpK (key a) (key b) = .lt) :=
  pairwise_lt_dedupByKey key _ (pairwise_sortByKey key l)

theorem mem_of_mem_canonicalize (key : α → KeyC) (l : List α) (x : α)
    (hx : x ∈ canonicalize key l) : x ∈ l :=
  (mem_sortByKey key l x).mp (mem_of_mem_dedupByKey key _ x hx)

theorem hasKey_canonicalize (key : α → KeyC) (l : List α) (k : KeyC) :
    hasKey key (canonicalize key l) k ↔ hasKey key l k := by
  rw [canonicalize, hasKey_dedupByKey]
  unfold hasKey
  constructor
  · rintro ⟨x, hx, hk⟩
    exact ⟨x, (mem_sortByKey key l x).mp hx, hk⟩
  · rintro ⟨x, hx, hk⟩
    exact ⟨x, (mem_sortByKey key l x).mpr hx, hk⟩

end MirrorClone.Engine

namespace MirrorClone.Engine

theorem classifyBy_spec (key : α → KeyC) :
    ∀ ss ts : List α,
      ss.Pairwise (fun a b => cmpK (key a) (key b) = .lt) →
      ts.Pairwise (fun a b => cmpK (key a) (key b) = .lt) →
      (∀ x, Incl.left x ∈ classifyBy key ss ts ↔
        (x ∈ ss ∧ ¬ hasKey key ts (key x))) ∧
      (∀ x y, Incl.both x y ∈ classifyBy key ss ts ↔
        (x ∈ ss ∧ y ∈ ts ∧ key x = key y)) ∧
      (∀ y, Incl.right y ∈ classifyBy key ss ts ↔
        (y ∈ ts ∧ ¬ hasKey key ss (key y)))
  | [], ts, _, _ => by
    refine ⟨?_, ?_, ?_⟩ <;> intros <;>
      simp [classifyBy, hasKey, List.mem_map]
  | s :: ss, [], hss, _ => by
    refine ⟨?_, ?_, ?_⟩ <;> intros <;>
      simp [classifyBy, hasKey, List.mem_map]
  | s :: ss, t :: ts, hss, hts => by
    rcases List.pairwise_cons.mp hss with ⟨hs, hss'⟩
    rcases List.pairwise_cons.mp hts with ⟨ht, hts'⟩
    rcases hc : cmpK (key s) (key t) with _ | _ | _
    · -- key s < key t : Inclusion::Left(s)
      have heads : ∀ y ∈ t :: ts, cmpK (key s) (key y) = .lt := by
        intro y hy
        rcases List.mem_cons.mp hy with h1 | h1
        · subst h1
          exact hc
        · exact cmpK_lt_trans _ _ _ hc (ht y h1)
      have hskey : ¬ hasKey key (t :: ts) (key s) := by
        rintro ⟨y, hy, hyk⟩
        have hlt := heads y hy
        rw [hyk] at hlt
        exact cmpK_lt_ne hlt rfl
      have IH := classifyBy_spec key ss (t :: ts) hss' hts
      have hcl : classifyBy key (s :: ss) (t :: ts) =
          .left s :: classifyBy key ss (t :: ts) := by
        simp only [classifyBy, hc]
      refine ⟨?_, ?_, ?_⟩
      · intro x
        rw [hcl]
        constructor
        · intro hmem
          rcases List.mem_cons.mp hmem with h1 | h1
          · injection h1 with h2
            subst h2
            exact ⟨List.mem_cons_self _ _, hskey⟩
          · obtain ⟨hx, hnk⟩ := (IH.1 x).mp h1
            exact ⟨List.mem_cons_of_mem _ hx, hnk⟩
        · rintro ⟨hx, hnk⟩
          rcases List.mem_cons.mp hx with h1 | h1
          · subst h1
            exact List.mem_cons_self _ _
          · exact List.mem_cons_of_mem _ ((IH.1 x).mpr ⟨h1, hnk⟩)
      · intro x y
        rw [hcl]
        constructor
        · intro hmem
          rcases List.mem_cons.mp hmem with h1 | h1
          · cases h1
          · obtain ⟨hx, hy, hk⟩ := (IH.2.1 x y).mp h1
            exact ⟨List.mem_cons_of_mem _ hx, hy, hk⟩
        · rintro ⟨hx, hy, hk⟩
          rcases List.mem_cons.mp hx with h1 | h1
          · subst h1
            exact absurd ⟨y, hy, hk.symm⟩ hskey
          · exact List.mem_cons_of_mem _ ((IH.2.1 x y).mpr ⟨h1, hy, hk⟩)
      · intro y
        rw [hcl]
        constructor
        · intro hmem
          rcases List.mem_cons.mp hmem with h1 | h1
          · cases h1
          · obtain ⟨hy, hnk⟩ := (IH.2.2 y).mp h1
            refine ⟨hy, ?_⟩
            rintro ⟨x, hx, hxk⟩
            rcases List.mem_cons.mp hx with h2 | h2
            · subst h2
              have hlt := heads y hy
              rw [hxk] at hlt
              exact cmpK_lt_ne hlt rfl
            · exact hnk ⟨x, h2, hxk⟩
        · rintro ⟨hy, hnk⟩
          refine List.mem_cons_of_mem _ ((IH.2.2 y).mpr ⟨hy, ?_⟩)
          rintro ⟨x, hx, hxk⟩
          exact hnk ⟨x, List.mem_cons_of_mem _ hx, hxk⟩
    · -- key s = key t : Inclusion::Both(s, t)
      have hkey : key s = key t := (cmpK_eq_iff _ _).mp hc
      have IH := classifyBy_spec key ss ts hss' hts'
      have hcl : classifyBy key (s :: ss) (t :: ts) =
          .both s t :: classifyBy key ss ts := by
        simp only [classifyBy, hc]
      have hs_ne : ∀ x ∈ ss, key s ≠ key x := fun x hx => cmpK_lt_ne (hs x hx)
      have ht_ne : ∀ y ∈ ts, key t ≠ key y := fun y hy => cmpK_lt_ne (ht y hy)
      refine ⟨?_, ?_, ?_⟩
      · intro x
        rw [hcl]
        constructor
        · intro hmem
          rcases List.mem_cons.mp hmem with h1 | h1
          · cases h1
          · obtain ⟨hx, hnk⟩ := (IH.1 x).mp h1
            refine ⟨List.mem_cons_of_mem _ hx, ?_⟩
            rintro ⟨y, hy, hyk⟩
            rcases List.mem_cons.mp hy with h2 | h2
            · subst h2
              exact hs_ne x hx (by rw [hkey, hyk])
            · exact hnk ⟨y, h2, hyk⟩
        · rintro ⟨hx, hnk⟩
          rcases List.mem_cons.mp hx with h1 | h1
          · subst h1
            exact absurd ⟨t, List.mem_cons_self _ _, hkey.symm⟩ hnk
          · refine List.mem_cons_of_mem _ ((IH.1 x).mpr ⟨h1, ?_⟩)
            rintro ⟨y, hy, hyk⟩
            exact hnk ⟨y, List.mem_cons_of_mem _ hy, hyk⟩
      · intro x y
        rw [hcl]
        constructor
        · intro hmem
          rcases List.mem_cons.mp hmem with h1 | h1
          · injection h1 with h2 h3
            subst h2
            subst h3
            exact ⟨List.mem_cons_self _ _, List.mem_cons_self _ _, hkey⟩
          · obtain ⟨hx, hy, hk⟩ := (IH.2.1 x y).mp h1
            exact ⟨List.mem_cons_of_mem _ hx, List.mem_cons_of_mem _ hy, hk⟩
        · rintro ⟨hx, hy, hk⟩
          rcases List.mem_cons.mp hx with h1 | h1 <;>
            rcases List.mem_cons.mp hy with h2 | h2
          · subst h1
            subst h2
            exact List.mem_cons_self _ _
          · subst h1
            exact ((ht_ne y h2) (hkey.symm.trans hk)).elim
          · subst h2
            exact ((hs_ne x h1) (hkey.trans hk.symm)).elim
          · exact List.mem_cons_of_mem _ ((IH.2.1 x y).mpr ⟨h1, h2, hk⟩)
      · intro y
        rw [hcl]
        constructor
        · intro hmem
          rcases List.mem_cons.mp hmem with h1 | h1
          · cases h1
          · obtain ⟨hy, hnk⟩ := (IH.2.2 y).mp h1
            refine ⟨List.mem_cons_of_mem _ hy, ?_⟩
            rintro ⟨x, hx, hxk⟩
            rcases List.mem_cons.mp hx with h2 | h2
            · subst h2
              exact ht_ne y hy (by rw [← hkey, hxk])
            · exact hnk ⟨x, h2, hxk⟩
        · rintro ⟨hy, hnk⟩
          rcases List.mem_cons.mp hy with h1 | h1
          · subst h1
            exact absurd ⟨s, List.mem_cons_self _ _, hkey⟩ hnk
          · refine List.mem_cons_of_mem _ ((IH.2.2 y).mpr ⟨h1, ?_⟩)
            rintro ⟨x, hx, hxk⟩
            exact hnk ⟨x, List.mem_cons_of_mem _ hx, hxk⟩
    · -- key s > key t : Inclusion::Right(t)
      have hlt : cmpK (key t) (key s) = .lt := by
        rw [cmpK_swap (key s) (key t), hc]
        rfl
      have heads : ∀ x ∈ s :: ss, cmpK (key t) (key x) = .lt := by
        intro x hx
        rcases List.mem_cons.mp hx with h1 | h1
        · subst h1
          exact hlt
        · exact cmpK_lt_trans _ _ _ hlt (hs x h1)
      have htkey : ¬ hasKey key (s :: ss) (key t) := by
        rintro ⟨x, hx, hxk⟩
        have h2 := heads x hx
        rw [hxk] at h2
        exact cmpK_lt_ne h2 rfl
      have IH := classifyBy_spec key (s :: ss) ts hss hts'
      have hcl : classifyBy key (s :: ss) (t :: ts) =
          .right t :: classifyBy key (s :: ss) ts := by
        simp only [classifyBy, hc]
      refine ⟨?_, ?_, ?_⟩
      · intro x
        rw [hcl]
        constructor
        · intro hmem
          rcases List.mem_cons.mp hmem with h1 | h1
          · cases h1
          · obtain ⟨hx, hnk⟩ := (IH.1 x).mp h1
            refine ⟨hx, ?_⟩
            rintro ⟨y, hy, hyk⟩
            rcases List.mem_cons.mp hy with h2 | h2
            · subst h2
              have h3 := heads x hx
              rw [hyk] at h3
              exact cmpK_lt_ne h3 rfl
            · exact hnk ⟨y, h2, hyk⟩
        · rintro ⟨hx, hnk⟩
          refine List.mem_cons_of_mem _ ((IH.1 x).mpr ⟨hx, ?_⟩)
          rintro ⟨y, hy, hyk⟩
          exact hnk ⟨y, List.mem_cons_of_mem _ hy, hyk⟩
      · intro x y
        rw [hcl]
        constructor
        · intro hmem
          rcases List.mem_cons.mp hmem with h1 | h1
          · cases h1
          · obtain ⟨hx, hy, hk⟩ := (IH.2.1 x y).mp h1
            exact ⟨hx, List.mem_cons_of_mem _ hy, hk⟩
        · rintro ⟨hx, hy, hk⟩
          rcases List.mem_cons.mp hy with h1 | h1
          · subst h1
            exact (htkey ⟨x, hx, hk⟩).elim
          · exact List.mem_cons_of_mem _ ((IH.2.1 x y).mpr ⟨hx, h1, hk⟩)
      · intro y
        rw [hcl]
        constructor
        · intro hmem
          rcases List.mem_cons.mp hmem with h1 | h1
          · injection h1 with h2
            subst h2
            exact ⟨List.mem_cons_self _ _, htkey⟩
          · obtain ⟨hy, hnk⟩ := (IH.2.2 y).mp h1
            exact ⟨List.mem_cons_of_mem _ hy, hnk⟩
        · rintro ⟨hy, hnk⟩
          rcases List.mem_cons.mp hy with h1 | h1
          · subst h1
            exact List.mem_cons_self _ _
          · exact List.mem_cons_of_mem _ ((IH.2.2 y).mpr ⟨h1, hnk⟩)
termination_by ss ts => ss.length + ts.length

end MirrorClone.Engine

namespace MirrorClone.Engine

theorem buildPlan_fst_mem (diff : α → α → Bool) :
    ∀ cls : List (Incl α), ∀ x : α,
      x ∈ (buildPlan diff cls).1 ↔
        (Incl.left x ∈ cls ∨ ∃ y, Incl.both x y ∈ cls ∧ diff x y = true)
  | [], x => by simp [buildPlan]
  | .left s :: rest, x => by
    simp only [buildPlan, List.mem_cons]
    constructor
    · rintro (rfl | hx)
      · exact Or.inl (Or.inl rfl)
      · rcases (buildPlan_fst_mem diff rest x).mp hx with h | ⟨y, hy, hdy⟩
        · exact Or.inl (Or.inr h)
        · exact Or.inr ⟨y, Or.inr hy, hdy⟩
    · rintro (h | ⟨y, hy, hdy⟩)
      · rcases h with h1 | h1
        · injection h1 with h2
          exact Or.inl h2
        · exact Or.inr ((buildPlan_fst_mem diff rest x).mpr (Or.inl h1))
      · rcases hy with h1 | h1
        · cases h1
        · exact Or.inr ((buildPlan_fst_mem diff rest x).mpr (Or.inr ⟨y, h1, hdy⟩))
  | .both s t :: rest, x => by
    simp only [buildPlan]
    by_cases hd : diff s t = true
    · rw [if_pos hd]
      constructor
      · intro hx
        rcases List.mem_cons.mp hx with rfl | hx'
        · exact Or.inr ⟨t, List.mem_cons_self _ _, hd⟩
        · rcases (buildPlan_fst_mem diff rest x).mp hx' with h | ⟨y, hy, hdy⟩
          · exact Or.inl (List.mem_cons_of_mem _ h)
          · exact Or.inr ⟨y, List.mem_cons_of_mem _ hy, hdy⟩
      · rintro (h | ⟨y, hy, hdy⟩)
        · rcases List.mem_cons.mp h with h1 | h1
          · cases h1
          · exact List.mem_cons_of_mem _
              ((buildPlan_fst_mem diff rest x).mpr (Or.inl h1))
        · rcases List.mem_cons.mp hy with h1 | h1
          · injection h1 with h2 h3
            subst h2
            exact List.mem_cons_self _ _
          · exact List.mem_cons_of_mem _
              ((buildPlan_fst_mem diff rest x).mpr (Or.inr ⟨y, h1, hdy⟩))
    · rw [if_neg hd]
      constructor
      · intro hx
        rcases (buildPlan_fst_mem diff rest x).mp hx with h | ⟨y, hy, hdy⟩
        · exact Or.inl (List.mem_cons_of_mem _ h)
        · exact Or.inr ⟨y, List.mem_cons_of_mem _ hy, hdy⟩
      · rintro (h | ⟨y, hy, hdy⟩)
        · rcases List.mem_cons.mp h with h1 | h1
          · cases h1
          · exact (buildPlan_fst_mem diff rest x).mpr (Or.inl h1)
        · rcases List.mem_cons.mp hy with h1 | h1
          · injection h1 with h2 h3
            subst h2
            subst h3
            exact absurd hdy hd
          · exact (buildPlan_fst_mem diff rest x).mpr (Or.inr ⟨y, h1, hdy⟩)
  | .right t :: rest, x => by
    simp only [buildPlan]
    constructor
    · intro hx
      rcases (buildPlan_fst_mem diff rest x).mp hx with h | ⟨y, hy, hdy⟩
      · exact Or.inl (List.mem_cons_of_mem _ h)
      · exact Or.inr ⟨y, List.mem_cons_of_mem _ hy, hdy⟩
    · rintro (h | ⟨y, hy, hdy⟩)
      · rcases List.mem_cons.mp h with h1 | h1
        · cases h1
        · exact (buildPlan_fst_mem diff rest x).mpr (Or.inl h1)
      · rcases List.mem_cons.mp hy with h1 | h1
        · cases h1
        · exact (buildPlan_fst_mem diff rest x).mpr (Or.inr ⟨y, h1, hdy⟩)

theorem buildPlan_snd_mem (diff : α → α → Bool) :
    ∀ cls : List (Incl α), ∀ y : α,
      y ∈ (buildPlan diff cls).2 ↔ Incl.right y ∈ cls
  | [], y => by simp [buildPlan]
  | .left s :: rest, y => by
    simp only [buildPlan, List.mem_cons]
    rw [buildPlan_snd_mem diff rest y]
    constructor
    · intro h
      exact Or.inr h
    · rintro (h | h)
      · cases h
      · exact h
  | .both s t :: rest, y => by
    simp only [buildPlan, List.mem_cons]
    rw [buildPlan_snd_mem diff rest y]
    constructor
    · intro h
      exact Or.inr h
    · rintro (h | h)
      · cases h
      · exact h
  | .right t :: rest, y => by
    simp only [buildPlan, List.mem_cons]
    rw [buildPlan_snd_mem diff rest y]
    constructor
    · rintro (rfl | h)
      · exact Or.inl rfl
      · exact Or.inr h
    · rintro (h | h)
      · injection h with h1
        exact Or.inl h1
      · exact Or.inr h

theorem mem_sortByPrio (prio : α → Int) (l : List α) (x : α) :
    x ∈ sortByPrio prio l ↔ x ∈ l :=
  List.mem_mergeSort

/-- C1: after each snapshot vector is sorted and deduplicated by key, the
engine's plan puts a key into the update plan exactly when it is present
only in the source (Add) or present in both with `diff` holding (Update),
and into the deletion plan exactly when it is present only in the target
(Delete); every plan entry is an item of the corresponding canonicalized
snapshot — nothing else enters the plan. -/
theorem c1_plan_classification {α : Type} (key : α → KeyC)
    (diff : α → α → Bool) (prio : α → Int) (src tgt : List α) :
    (∀ k, hasKey key (transferPlan key diff prio src tgt).1 k ↔
        ((hasKey key (canonicalize key src) k ∧
            ¬ hasKey key (canonicalize key tgt) k) ∨
          (∃ a ∈ canonicalize key src, ∃ b ∈ canonicalize key tgt,
            key a = k ∧ key b = k ∧ diff a b = true))) ∧
    (∀ k, hasKey key (transferPlan key diff prio src tgt).2 k ↔
        (hasKey key (canonicalize key tgt) k ∧
          ¬ hasKey key (canonicalize key src) k)) ∧
    (∀ x ∈ (transferPlan key diff prio src tgt).1,
      x ∈ canonicalize key src) ∧
    (∀ y ∈ (transferPlan key diff prio src tgt).2,
      y ∈ canonicalize key tgt) := by
  have hps := canonicalize_pairwise key src
  have hpt := canonicalize_pairwise key tgt
  have SPEC := classifyBy_spec key (canonicalize key src)
    (canonicalize key tgt) hps hpt
  have hfst : (transferPlan key diff prio src tgt).1 =
      sortByPrio prio (buildPlan diff (classifyBy key
        (canonicalize key src) (canonicalize key tgt))).1 := rfl
  have hsnd : (transferPlan key diff prio src tgt).2 =
      sortByPrio prio (buildPlan diff (classifyBy key
        (canonicalize key src) (canonicalize key tgt))).2 := rfl
  refine ⟨?_, ?_, ?_, ?_⟩
  · intro k
    rw [hfst]
    constructor
    · rintro ⟨x, hx, hk⟩
      have hx1 := (mem_sortByPrio prio _ x).mp hx
      rcases (buildPlan_fst_mem diff _ x).mp hx1 with h | ⟨y, hy, hdy⟩
      · obtain ⟨hxs, hnk⟩ := (SPEC.1 x).mp h
        exact Or.inl ⟨⟨x, hxs, hk⟩, by rw [← hk]; exact hnk⟩
      · obtain ⟨hxs, hyt, hke⟩ := (SPEC.2.1 x y).mp hy
        exact Or.inr ⟨x, hxs, y, hyt, hk, by rw [← hke]; exact hk, hdy⟩
    · rintro (⟨⟨x, hxs, hk⟩, hnk⟩ | ⟨a, has, b, hbt, hak, hbk, hd⟩)
      · refine ⟨x, ?_, hk⟩
        rw [mem_sortByPrio]
        refine (buildPlan_fst_mem diff _ x).mpr (Or.inl ?_)
        refine (SPEC.1 x).mpr ⟨hxs, ?_⟩
        rw [hk]
        exact hnk
      · refine ⟨a, ?_, hak⟩
        rw [mem_sortByPrio]
        refine (buildPlan_fst_mem diff _ a).mpr (Or.inr ⟨b, ?_, hd⟩)
        exact (SPEC.2.1 a b).mpr ⟨has, hbt, by rw [hak, hbk]⟩
  · intro k
    rw [hsnd]
    constructor
    · rintro ⟨y, hy, hk⟩
      have hy1 := (mem_sortByPrio prio _ y).mp hy
      have h := (buildPlan_snd_mem diff _ y).mp hy1
      obtain ⟨hyt, hnk⟩ := (SPEC.2.2 y).mp h
      exact ⟨⟨y, hyt, hk⟩, by rw [← hk]; exact hnk⟩
    · rintro ⟨⟨y, hyt, hk⟩, hnk⟩
      refine ⟨y, ?_, hk⟩
      rw [mem_sortByPrio]
      refine (buildPlan_snd_mem diff _ y).mpr ?_
      refine (SPEC.2.2 y).mpr ⟨hyt, ?_⟩
      rw [hk]
      exact hnk
  · intro x hx
    rw [hfst] at hx
    have hx1 := (mem_sortByPrio prio _ x).mp hx
    rcases (buildPlan_fst_mem diff _ x).mp hx1 with h | ⟨y, hy, _⟩
    · exact ((SPEC.1 x).mp h).1
    · exact ((SPEC.2.1 x y).mp hy).1
  · intro y hy
    rw [hsnd] at hy
    have hy1 := (mem_sortByPrio prio _ y).mp hy
    exact ((SPEC.2.2 y).mp ((buildPlan_snd_mem diff _ y).mp hy1)).1

end MirrorClone.Engine

namespace MirrorClone.Engine

open MirrorClone.Meta

unseal List.merge List.mergeSort MirrorClone.Engine.dedupByKey MirrorClone.Engine.classifyBy in
/-- C1 witness: with source keys b (forced), a and target keys b, c, the
plan updates a (source only) and b (present in both, diff by force), and
deletes c (target only). -/
theorem c1_plan_witness :
    hasKey SnapshotMeta.key
      (transferPlan SnapshotMeta.key SnapshotMeta.diff SnapshotMeta.priority
        [{ key := ['b'], flags := { force := true, force_last := true } },
         { key := ['a'] }]
        [{ key := ['b'] }, { key := ['c'] }]).1 ['a'] ∧
    hasKey SnapshotMeta.key
      (transferPlan SnapshotMeta.key SnapshotMeta.diff SnapshotMeta.priority
        [{ key := ['b'], flags := { force := true, force_last := true } },
         { key := ['a'] }]
        [{ key := ['b'] }, { key := ['c'] }]).1 ['b'] ∧
    hasKey SnapshotMeta.key
      (transferPlan SnapshotMeta.key SnapshotMeta.diff SnapshotMeta.priority
        [{ key := ['b'], flags := { force := true, force_last := true } },
         { key := ['a'] }]
        [{ key := ['b'] }, { key := ['c'] }]).2 ['c'] := by
  have h := c1_plan_classification SnapshotMeta.key SnapshotMeta.diff
    SnapshotMeta.priority
    [{ key := ['b'], flags := { force := true, force_last := true } },
     { key := ['a'] }]
    [{ key := ['b'] }, { key := ['c'] }]
  refine ⟨?_, ?_, ?_⟩
  · exact (h.1 ['a']).mpr (Or.inl ⟨by decide, by decide⟩)
  · exact (h.1 ['b']).mpr (Or.inr (by decide))
  · exact (h.2.1 ['c']).mpr ⟨by decide, by decide⟩

end MirrorClone.Engine

namespace MirrorClone.IndexPipe

open MirrorClone

mutual

theorem snapC_eq_map : ∀ (idx : Idx) (pre : KeyL) (L : Component),
    snapC idx pre L = (nodePaths idx).map (fun p => pre ++ p ++ [L])
  | .mk ps os, pre, L => by
    rw [snapC, nodePaths, snapL_eq_map ps pre L]
    simp

theorem snapL_eq_map : ∀ (ps : List (Component × Idx)) (pre : KeyL)
    (L : Component),
    snapL ps pre L = (nodePathsL ps).map (fun p => pre ++ p ++ [L])
  | [], _, _ => rfl
  | (c, child) :: rest, pre, L => by
    rw [snapL, nodePathsL, snapC_eq_map child (pre ++ [c]) L,
      snapL_eq_map rest pre L]
    simp [List.map_map, Function.comp_def]

end

theorem mem_nodePathsL (ps : List (Component × Idx)) (p : KeyL) :
    p ∈ nodePathsL ps ↔
      ∃ c q t, (c, t) ∈ ps ∧ q ∈ nodePaths t ∧ p = c :: q := by
  induction ps with
  | nil => simp [nodePathsL]
  | cons e rest ih =>
    obtain ⟨c0, t0⟩ := e
    rw [nodePathsL]
    simp only [List.mem_append, List.mem_map, ih]
    constructor
    · rintro (⟨q, hq, rfl⟩ | ⟨c, q, t, hm, hq, rfl⟩)
      · exact ⟨c0, q, t0, List.mem_cons_self _ _, hq, rfl⟩
      · exact ⟨c, q, t, List.mem_cons_of_mem _ hm, hq, rfl⟩
    · rintro ⟨c, q, t, hm, hq, rfl⟩
      rcases List.mem_cons.mp hm with h1 | h1
      · injection h1 with h2 h3
        subst h2
        subst h3
        exact Or.inl ⟨q, hq, rfl⟩
      · exact Or.inr ⟨c, q, t, h1, hq, rfl⟩

theorem mem_nodePaths_mk (ps : List (Component × Idx)) (os : List (List Char))
    (p : KeyL) :
    p ∈ nodePaths (.mk ps os) ↔
      (p = [] ∨ ∃ c q t, (c, t) ∈ ps ∧ q ∈ nodePaths t ∧ p = c :: q) := by
  rw [nodePaths]
  rw [List.mem_cons, mem_nodePathsL]

theorem nil_mem_nodePaths (idx : Idx) : [] ∈ nodePaths idx := by
  cases idx with
  | mk ps os =>
    rw [nodePaths]
    exact List.mem_cons_self _ _

theorem entries_unique {ps : List (Component × Idx)}
    (hpw : List.Pairwise (fun a b => cmpK a.1 b.1 = .lt) ps)
    {c : Component} {t1 t2 : Idx} (h1 : (c, t1) ∈ ps) (h2 : (c, t2) ∈ ps) :
    t1 = t2 := by
  induction ps with
  | nil => cases h1
  | cons e rest ih =>
    rcases List.pairwise_cons.mp hpw with ⟨he, hrest⟩
    rcases List.mem_cons.mp h1 with g1 | g1 <;>
      rcases List.mem_cons.mp h2 with g2 | g2
    · have g3 := g1.trans g2.symm
      injection g3
    · subst g1
      exact absurd (he _ g2) (by simp [cmpK_same])
    · subst g2
      exact absurd (he _ g1) (by simp [cmpK_same])
    · exact ih hrest g1 g2

theorem getPre_mem {ps : List (Component × Idx)} {c : Component} {t : Idx}
    (h : getPre ps c = some t) : (c, t) ∈ ps := by
  induction ps with
  | nil => cases h
  | cons e rest ih =>
    obtain ⟨k, w⟩ := e
    rw [getPre] at h
    by_cases hk : k = c
    · rw [if_pos hk] at h
      injection h with h1
      rw [← hk, h1]
      exact List.mem_cons_self _ _
    · rw [if_neg hk] at h
      exact List.mem_cons_of_mem _ (ih h)

theorem getPre_none {ps : List (Component × Idx)} {c : Component}
    (h : getPre ps c = none) : ∀ t, (c, t) ∉ ps := by
  induction ps with
  | nil => simp
  | cons e rest ih =>
    obtain ⟨k, w⟩ := e
    rw [getPre] at h
    by_cases hk : k = c
    · rw [if_pos hk] at h
      cases h
    · rw [if_neg hk] at h
      intro t ht
      rcases List.mem_cons.mp ht with h1 | h1
      · injection h1 with h2
        exact hk h2.symm
      · exact ih h t h1

theorem setPre_mem {ps : List (Component × Idx)}
    (hpw : List.Pairwise (fun a b => cmpK a.1 b.1 = .lt) ps)
    (c : Component) (v : Idx) (k : Component) (w : Idx) :
    (k, w) ∈ setPre ps c v ↔
      ((k = c ∧ w = v) ∨ ((k, w) ∈ ps ∧ k ≠ c)) := by
  induction ps with
  | nil =>
    simp only [setPre, List.mem_singleton, List.not_mem_nil]
    constructor
    · intro h
      injection h with h1 h2
      exact Or.inl ⟨h1, h2⟩
    · rintro (⟨rfl, rfl⟩ | ⟨h, _⟩)
      · rfl
      · cases h
  | cons e rest ih =>
    obtain ⟨k0, w0⟩ := e
    rcases List.pairwise_cons.mp hpw with ⟨he, hrest⟩
    rw [setPre]
    rcases hc : cmpK c k0 with _ | _ | _
    · -- c < k0 : insert in front
      simp only [List.mem_cons]
      constructor
      · rintro (h1 | h1 | h1)
        · injection h1 with h2 h3
          exact Or.inl ⟨h2, h3⟩
        · refine Or.inr ⟨Or.inl h1, ?_⟩
          injection h1 with h2 _
          subst h2
          exact fun he2 => cmpK_lt_ne hc he2.symm
        · refine Or.inr ⟨Or.inr h1, ?_⟩
          intro hkc
          subst hkc
          have hk0k := he (k, w) h1
          have h3 := cmpK_lt_trans _ _ _ hc hk0k
          exact cmpK_lt_ne h3 rfl
      · rintro (⟨rfl, rfl⟩ | ⟨h1, hne⟩)
        · exact Or.inl rfl
        · exact Or.inr h1
    · -- c = k0 : replace head
      have hck : c = k0 := (cmpK_eq_iff _ _).mp hc
      subst hck
      simp only [List.mem_cons]
      constructor
      · rintro (h1 | h1)
        · injection h1 with h2 h3
          exact Or.inl ⟨h2, h3⟩
        · refine Or.inr ⟨Or.inr h1, ?_⟩
          intro hkc
          subst hkc
          have h3 := he (k, w) h1
          exact cmpK_lt_ne h3 rfl
      · rintro (⟨rfl, rfl⟩ | ⟨h1, hne⟩)
        · exact Or.inl rfl
        · rcases h1 with h2 | h2
          · injection h2 with h3
            exact absurd h3 hne
          · exact Or.inr h2
    · -- c > k0 : keep head, recurse
      simp only [List.mem_cons]
      rw [ih hrest]
      constructor
      · rintro (h1 | h1)
        · refine Or.inr ⟨Or.inl h1, ?_⟩
          injection h1 with h2 _
          subst h2
          intro hkc
          subst hkc
          rw [cmpK_same] at hc
          cases hc
        · rcases h1 with ⟨h2, h3⟩ | ⟨h2, h3⟩
          · exact Or.inl ⟨h2, h3⟩
          · exact Or.inr ⟨Or.inr h2, h3⟩
      · rintro (⟨rfl, rfl⟩ | ⟨h1, hne⟩)
        · exact Or.inr (Or.inl ⟨rfl, rfl⟩)
        · rcases h1 with h2 | h2
          · exact Or.inl h2
          · exact Or.inr (Or.inr ⟨h2, hne⟩)

theorem setPre_sorted {ps : List (Component × Idx)}
    (hpw : List.Pairwise (fun a b => cmpK a.1 b.1 = .lt) ps)
    (c : Component) (v : Idx) :
    List.Pairwise (fun a b => cmpK a.1 b.1 = .lt) (setPre ps c v) := by
  induction ps with
  | nil => simp [setPre]
  | cons e rest ih =>
    obtain ⟨k0, w0⟩ := e
    rcases List.pairwise_cons.mp hpw with ⟨he, hrest⟩
    rw [setPre]
    rcases hc : cmpK c k0 with _ | _ | _
    · refine List.pairwise_cons.mpr ⟨?_, hpw⟩
      intro e2 he2
      rcases List.mem_cons.mp he2 with h1 | h1
      · rw [h1]
        exact hc
      · exact cmpK_lt_trans _ _ _ hc (he e2 h1)
    · have hck : c = k0 := (cmpK_eq_iff _ _).mp hc
      subst hck
      exact List.pairwise_cons.mpr ⟨he, hrest⟩
    · refine List.pairwise_cons.mpr ⟨?_, ih hrest⟩
      intro e2 he2
      rcases (setPre_mem hrest c v e2.1 e2.2).mp (by simpa using he2) with
        ⟨h1, h2⟩ | ⟨h1, h2⟩
      · rw [h1]
        rw [cmpK_swap c k0, hc]
        rfl
      · exact he e2 (by simpa using h1)

end MirrorClone.IndexPipe

namespace MirrorClone.IndexPipe

theorem wfi_empty : WFi emptyIdx :=
  WFi.mk [] [] (by simp) (by simp)

theorem nodePaths_ignores_objs (ps : List (Component × Idx))
    (os os2 : List (List Char)) :
    nodePaths (.mk ps os) = nodePaths (.mk ps os2) := by
  rw [nodePaths, nodePaths]

theorem wfi_insertC :
    ∀ (path : KeyL) (d : Nat) (idx : Idx), WFi idx →
      WFi (insertC path d idx)
  | [], d, .mk ps os, hwf => by
    cases hwf with
    | mk _ _ hpw hch =>
      rw [insertC]
      by_cases hd : d = 0
      · rw [if_pos hd]
        exact WFi.mk _ _ hpw hch
      · rw [if_neg hd]
        exact WFi.mk _ _ hpw hch
  | [c], d, .mk ps os, hwf => by
    cases hwf with
    | mk _ _ hpw hch =>
      rw [insertC]
      by_cases hd : d = 0
      · rw [if_pos hd]
        exact WFi.mk _ _ hpw hch
      · rw [if_neg hd]
        exact WFi.mk _ _ hpw hch
  | c :: c2 :: rest, d, .mk ps os, hwf => by
    cases hwf with
    | mk _ _ hpw hch =>
      have hcw : WFi ((getPre ps c).getD emptyIdx) := by
        cases hg : getPre ps c with
        | none => exact wfi_empty
        | some t0 => exact hch (c, t0) (getPre_mem hg)
      have hwt : WFi (insertC (c2 :: rest) (d - 1)
          ((getPre ps c).getD emptyIdx)) :=
        wfi_insertC (c2 :: rest) (d - 1) _ hcw
      by_cases hd : d = 0
      · have hred : insertC (c :: c2 :: rest) d (.mk ps os) =
            .mk ps (addObj os (joinK (c :: c2 :: rest))) := by
          rw [insertC, if_pos hd]
          · rfl
          · intro h
            cases h
        rw [hred]
        exact WFi.mk _ _ hpw hch
      · have hred : insertC (c :: c2 :: rest) d (.mk ps os) =
            .mk (setPre ps c (insertC (c2 :: rest) (d - 1)
              ((getPre ps c).getD emptyIdx))) os := by
          rw [insertC, if_neg hd]
          · rfl
          · intro h
            cases h
        rw [hred]
        refine WFi.mk _ _ (setPre_sorted hpw c _) ?_
        intro e hee
        rcases (setPre_mem hpw c _ e.1 e.2).mp (by simpa using hee) with
          ⟨h1, h2⟩ | ⟨h1, h2⟩
        · rw [h2]
          exact hwt
        · exact hch (e.1, e.2) (by simpa using h1)

end MirrorClone.IndexPipe


namespace MirrorClone.IndexPipe

theorem nodePaths_emptyIdx : nodePaths emptyIdx = [[]] := by
  rw [emptyIdx, nodePaths, nodePathsL]

theorem mem_nodePaths_insertC :
    ∀ (path : KeyL) (d : Nat) (idx : Idx), WFi idx → ∀ p : KeyL,
      p ∈ nodePaths (insertC path d idx) ↔
        (p ∈ nodePaths idx ∨
          (p ≠ [] ∧ p.length ≤ d ∧ p <+: path ∧ p.length < path.length))
  | [], d, .mk ps os, _, p => by
    have hred : nodePaths (insertC [] d (.mk ps os)) =
        nodePaths (.mk ps os) := by
      rw [insertC]
      by_cases hd : d = 0
      · rw [if_pos hd]
        exact nodePaths_ignores_objs _ _ _
      · rw [if_neg hd]
        exact nodePaths_ignores_objs _ _ _
    rw [hred]
    constructor
    · exact Or.inl
    · rintro (h | ⟨h1, h2, h3, h4⟩)
      · exact h
      · exact absurd h4 (by simp)
  | [c], d, .mk ps os, _, p => by
    have hred : nodePaths (insertC [c] d (.mk ps os)) =
        nodePaths (.mk ps os) := by
      rw [insertC]
      by_cases hd : d = 0
      · rw [if_pos hd]
        exact nodePaths_ignores_objs _ _ _
      · rw [if_neg hd]
        exact nodePaths_ignores_objs _ _ _
    rw [hred]
    constructor
    · exact Or.inl
    · rintro (h | ⟨h1, h2, h3, h4⟩)
      · exact h
      · rw [List.length_singleton] at h4
        have h5 : p = [] := by
          cases p with
          | nil => rfl
          | cons a q => simp at h4
        exact absurd h5 h1
  | c :: c2 :: rest, d, .mk ps os, hwf, p => by
    cases hwf with
    | mk _ _ hpw hch =>
      by_cases hd : d = 0
      · have hred : nodePaths (insertC (c :: c2 :: rest) d (.mk ps os)) =
            nodePaths (.mk ps os) := by
          rw [insertC, if_pos hd]
          · exact nodePaths_ignores_objs _ _ _
          · intro h
            cases h
        rw [hred]
        constructor
        · exact Or.inl
        · rintro (h | ⟨h1, h2, h3, h4⟩)
          · exact h
          · subst hd
            rw [Nat.le_zero] at h2
            exact absurd (List.length_eq_zero.mp h2) h1
      · have hred : insertC (c :: c2 :: rest) d (.mk ps os) =
            .mk (setPre ps c (insertC (c2 :: rest) (d - 1)
              ((getPre ps c).getD emptyIdx))) os := by
          rw [insertC, if_neg hd]
          · rfl
          · intro h
            cases h
        have hcw : WFi ((getPre ps c).getD emptyIdx) := by
          cases hg : getPre ps c with
          | none => exact wfi_empty
          | some t0 => exact hch (c, t0) (getPre_mem hg)
        have IH := mem_nodePaths_insertC (c2 :: rest) (d - 1)
          ((getPre ps c).getD emptyIdx) hcw
        rw [hred]
        cases p with
        | nil =>
          rw [mem_nodePaths_mk, mem_nodePaths_mk]
          simp
        | cons k q =>
          rw [mem_nodePaths_mk, mem_nodePaths_mk]
          constructor
          · rintro (h | ⟨k1, q1, t1, hm, hq, heq⟩)
            · cases h
            · cases heq
              rcases (setPre_mem hpw c _ k t1).mp hm with
                ⟨hkc, ht1⟩ | ⟨hm2, hne⟩
              · rw [ht1] at hq
                rcases (IH q).mp hq with hqc | ⟨hq, hq2, hq3, hq4⟩
                · cases hg : getPre ps c with
                  | none =>
                    rw [hg] at hqc
                    simp only [Option.getD_none] at hqc
                    rw [nodePaths_emptyIdx] at hqc
                    have hq0 : q = [] := by simpa using hqc
                    subst hq0
                    refine Or.inr ⟨by simp, ?_, ?_, ?_⟩
                    · simp only [List.length_cons, List.length_nil]
                      omega
                    · rw [List.cons_prefix_cons]
                      exact ⟨hkc, List.nil_prefix⟩
                    · simp only [List.length_cons, List.length_nil]
                      omega
                  | some t0 =>
                    rw [hg] at hqc
                    simp only [Option.getD_some] at hqc
                    refine Or.inl (Or.inr ⟨k, q, t0, ?_, hqc, rfl⟩)
                    rw [hkc]
                    exact getPre_mem hg
                · refine Or.inr ⟨by simp, ?_, ?_, ?_⟩
                  · simp only [List.length_cons]
                    omega
                  · rw [List.cons_prefix_cons]
                    exact ⟨hkc, hq3⟩
                  · simp only [List.length_cons] at hq4 ⊢
                    omega
              · exact Or.inl (Or.inr ⟨k, q, t1, hm2, hq, rfl⟩)
          · rintro ((h | ⟨k1, q1, t1, hm, hq, heq⟩) | ⟨hp1, hp2, hp3, hp4⟩)
            · cases h
            · cases heq
              by_cases hkc : k = c
              · rw [hkc] at hm
                cases hg : getPre ps c with
                | none => exact absurd hm (getPre_none hg t1)
                | some t0 =>
                  have ht : t1 = t0 := entries_unique hpw hm (getPre_mem hg)
                  rw [hg] at IH
                  refine Or.inr ⟨k, q, _,
                    (setPre_mem hpw c _ k _).mpr (Or.inl ⟨hkc, rfl⟩), ?_, rfl⟩
                  refine (IH q).mpr (Or.inl ?_)
                  simp only [Option.getD_some]
                  rw [← ht]
                  exact hq
              · exact Or.inr ⟨k, q, t1,
                  (setPre_mem hpw c _ k t1).mpr (Or.inr ⟨hm, hkc⟩), hq, rfl⟩
            · rw [List.cons_prefix_cons] at hp3
              obtain ⟨hkc, hq3⟩ := hp3
              refine Or.inr ⟨k, q, _,
                (setPre_mem hpw c _ k _).mpr (Or.inl ⟨hkc, rfl⟩), ?_, rfl⟩
              by_cases hq0 : q = []
              · subst hq0
                exact nil_mem_nodePaths _
              · refine (IH q).mpr (Or.inr ⟨hq0, ?_, hq3, ?_⟩)
                · simp only [List.length_cons] at hp2
                  omega
                · simp only [List.length_cons] at hp4 ⊢
                  omega

end MirrorClone.IndexPipe

namespace MirrorClone.IndexPipe

theorem wfi_foldl :
    ∀ (K : List KeyL) (D : Nat) (idx : Idx), WFi idx →
      WFi (K.foldl (fun idx k => insertC k D idx) idx)
  | [], _, _, h => h
  | k :: rest, D, idx, h =>
    wfi_foldl rest D (insertC k D idx) (wfi_insertC k D idx h)

theorem mem_nodePaths_foldl :
    ∀ (K : List KeyL) (D : Nat) (idx : Idx), WFi idx → ∀ p : KeyL,
      p ∈ nodePaths (K.foldl (fun idx k => insertC k D idx) idx) ↔
        (p ∈ nodePaths idx ∨
          ∃ k ∈ K, p ≠ [] ∧ p.length ≤ D ∧ p <+: k ∧ p.length < k.length)
  | [], _, _, _, p => by simp
  | k :: rest, D, idx, h, p => by
    rw [List.foldl_cons,
      mem_nodePaths_foldl rest D (insertC k D idx) (wfi_insertC k D idx h) p,
      mem_nodePaths_insertC k D idx h p]
    constructor
    · rintro ((h1 | h1) | ⟨k2, hk2, h2⟩)
      · exact Or.inl h1
      · exact Or.inr ⟨k, List.mem_cons_self _ _, h1⟩
      · exact Or.inr ⟨k2, List.mem_cons_of_mem _ hk2, h2⟩
    · rintro (h1 | ⟨k2, hk2, h2⟩)
      · exact Or.inl (Or.inl h1)
      · rcases List.mem_cons.mp hk2 with h3 | h3
        · subst h3
          exact Or.inl (Or.inr h2)
        · exact Or.inr ⟨k2, h3, h2⟩

theorem mem_nodePaths_generateIdx (K : List KeyL) (D : Nat) (p : KeyL) :
    p ∈ nodePaths (generateIdx K D) ↔
      (p = [] ∨
        ∃ k ∈ K, p ≠ [] ∧ p.length ≤ D ∧ p <+: k ∧ p.length < k.length) := by
  rw [generateIdx, mem_nodePaths_foldl K D emptyIdx wfi_empty p,
    nodePaths_emptyIdx]
  simp

theorem nodup_nodePathsL :
    ∀ ps : List (Component × Idx),
      List.Pairwise (fun a b => cmpK a.1 b.1 = .lt) ps →
      (∀ e ∈ ps, (nodePaths e.2).Nodup) → (nodePathsL ps).Nodup := by
  intro ps
  induction ps with
  | nil =>
    intro _ _
    rw [nodePathsL]
    exact List.nodup_nil
  | cons e rest ihl =>
    obtain ⟨c, child⟩ := e
    intro hpw hnd
    rcases List.pairwise_cons.mp hpw with ⟨he, hrest⟩
    rw [nodePathsL]
    refine List.Nodup.append ?_ ?_ ?_
    · exact (hnd (c, child) (List.mem_cons_self _ _)).map List.cons_injective
    · exact ihl hrest (fun e2 he2 => hnd e2 (List.mem_cons_of_mem _ he2))
    · intro p hp1 hp2
      rcases List.mem_map.mp hp1 with ⟨q, _, rfl⟩
      rcases (mem_nodePathsL rest (c :: q)).mp hp2 with ⟨c2, q2, t2, hm2, _, heq⟩
      injection heq with h1 _
      have hlt := he (c2, t2) hm2
      rw [h1] at hlt
      exact cmpK_lt_ne hlt rfl

theorem nodup_nodePaths : ∀ idx : Idx, WFi idx → (nodePaths idx).Nodup := by
  intro idx h
  induction h with
  | mk ps os hpw hch ih =>
    rw [nodePaths, List.nodup_cons]
    constructor
    · intro hmem
      rcases (mem_nodePathsL ps []).mp hmem with ⟨c, q, t, _, _, heq⟩
      cases heq
    · exact nodup_nodePathsL ps hpw ih

theorem mem_dedupConsec {β : Type} [DecidableEq β] :
    ∀ (l : List β) (x : β), x ∈ dedupConsec l ↔ x ∈ l
  | [], x => by simp [dedupConsec]
  | [a], x => by simp [dedupConsec]
  | a :: b :: rest, x => by
    rw [dedupConsec]
    by_cases h : b = a
    · rw [if_pos h, mem_dedupConsec (a :: rest) x]
      subst h
      simp only [List.mem_cons]
      constructor
      · rintro (h1 | h1)
        · exact Or.inl h1
        · exact Or.inr (Or.inr h1)
      · rintro (h1 | h1 | h1)
        · exact Or.inl h1
        · exact Or.inl h1
        · exact Or.inr h1
    · rw [if_neg h]
      simp only [List.mem_cons, mem_dedupConsec (b :: rest) x, List.mem_cons]
termination_by l => l.length

theorem mem_sortKeysJ (l : List KeyL) (x : KeyL) :
    x ∈ sortKeysJ l ↔ x ∈ l :=
  List.mem_mergeSort

theorem snapshotIndexKeys_eq_map (K : List KeyL) (D : Nat) :
    snapshotIndexKeys K D =
      (nodePaths (generateIdx (dedupConsec (sortKeysJ K)) D)).map
        (fun p => p ++ [listC]) := by
  rw [snapshotIndexKeys, snapC_eq_map]
  simp

theorem mem_snapshotIndexKeys (K : List KeyL) (D : Nat) (s : KeyL) :
    s ∈ snapshotIndexKeys K D ↔
      (s = [listC] ∨ ∃ p, IsDirPre K D p ∧ s = p ++ [listC]) := by
  rw [snapshotIndexKeys_eq_map]
  simp only [List.mem_map]
  constructor
  · rintro ⟨p, hp, rfl⟩
    rcases (mem_nodePaths_generateIdx _ _ p).mp hp with
      rfl | ⟨k, hk, h1, h2, h3, h4⟩
    · exact Or.inl (by simp)
    · refine Or.inr ⟨p, ⟨h1, h2, k, ?_, h3, h4⟩, rfl⟩
      exact (mem_sortKeysJ K k).mp ((mem_dedupConsec _ k).mp hk)
  · rintro (rfl | ⟨p, ⟨h1, h2, k, hk, h3, h4⟩, rfl⟩)
    · exact ⟨[], (mem_nodePaths_generateIdx _ _ []).mpr (Or.inl rfl), by simp⟩
    · refine ⟨p, (mem_nodePaths_generateIdx _ _ p).mpr
        (Or.inr ⟨k, ?_, h1, h2, h3, h4⟩), rfl⟩
      exact (mem_dedupConsec _ k).mpr ((mem_sortKeysJ K k).mpr hk)

theorem nodup_snapshotIndexKeys (K : List KeyL) (D : Nat) :
    (snapshotIndexKeys K D).Nodup := by
  rw [snapshotIndexKeys_eq_map]
  refine List.Nodup.map ?_
    (nodup_nodePaths _ (wfi_foldl _ _ _ wfi_empty))
  intro a b hab
  simpa using hab

end MirrorClone.IndexPipe

namespace MirrorClone.IndexPipe

theorem map_key_map_force (l : List KeyL) :
    ((l.map SnapshotMetaL.force).map (fun m => m.key)) = l := by
  induction l with
  | nil => rfl
  | cons a t ih =>
    simp only [List.map_cons]
    rw [ih]
    rfl

/-- C6: Enumerating through the index pipe yields exactly the child's
snapshot plus one synthetic key `<dir>/mirror_clone_list.html` for the
root and for every directory prefix of the child's key set of length at
most the configured max depth; every synthetic entry is marked `force`
and `force_last`; and, provided the child's keys are duplicate-free and
no child key ends in the sentinel component `mirror_clone_list.html`,
the combined listing is duplicate-free. (The unconditional no-duplicates
reading fails: a child key equal to a synthetic listing key is emitted
twice, see the counterexample.) -/
theorem c6_index_enumeration (src : List SnapshotMetaL) (D : Nat)
    (hnd : (src.map (fun m => m.key)).Nodup)
    (hns : ∀ k ∈ src.map (fun m => m.key), k.getLast? ≠ some listC) :
    (∀ s : KeyL, s ∈ (enumerateMeta src D).map (fun m => m.key) ↔
        (s ∈ src.map (fun m => m.key) ∨ s = [listC] ∨
          ∃ p, IsDirPre (src.map (fun m => m.key)) D p ∧
            s = p ++ [listC])) ∧
    (∀ m ∈ enumerateMeta src D, m ∈ src ∨
        (m.flags.force = true ∧ m.flags.force_last = true ∧
          (m.key = [listC] ∨
            ∃ p, IsDirPre (src.map (fun m => m.key)) D p ∧
              m.key = p ++ [listC]))) ∧
    ((enumerateMeta src D).map (fun m => m.key)).Nodup := by
  refine ⟨?_, ?_, ?_⟩
  · intro s
    rw [enumerateMeta, List.map_append, map_key_map_force, List.mem_append,
      mem_snapshotIndexKeys]
  · intro m hm
    rw [enumerateMeta, List.mem_append] at hm
    rcases hm with hm | hm
    · exact Or.inl hm
    · rcases List.mem_map.mp hm with ⟨s, hs, rfl⟩
      exact Or.inr ⟨rfl, rfl, (mem_snapshotIndexKeys _ _ s).mp hs⟩
  · rw [enumerateMeta, List.map_append, map_key_map_force]
    refine List.Nodup.append hnd (nodup_snapshotIndexKeys _ _) ?_
    intro k hk1 hk2
    rcases (mem_snapshotIndexKeys _ _ k).mp hk2 with rfl | ⟨p, _, rfl⟩
    · exact hns _ hk1 rfl
    · exact hns _ hk1 (by rw [List.getLast?_concat])

/-- C6 witness: a single key `a/b` enumerated at max depth 1 satisfies the
hypotheses, and the theorem yields a duplicate-free listing. -/
theorem c6_index_witness :
    ((([{ key := [['a'], ['b']] }] : List SnapshotMetaL).map
        (fun m => m.key)).Nodup) ∧
    (∀ k ∈ ([{ key := [['a'], ['b']] }] : List SnapshotMetaL).map
        (fun m => m.key), k.getLast? ≠ some listC) ∧
    (((enumerateMeta [{ key := [['a'], ['b']] }] 1).map
        (fun m => m.key)).Nodup) :=
  ⟨by decide, by decide,
    (c6_index_enumeration [{ key := [['a'], ['b']] }] 1
      (by decide) (by decide)).2.2⟩

unseal List.merge List.mergeSort MirrorClone.IndexPipe.dedupConsec MirrorClone.IndexPipe.insertC in
/-- C6 counterexample: a child key equal to the sentinel
`mirror_clone_list.html` collides with the synthetic root listing key, so
the combined enumeration contains a duplicate key. -/
theorem c6_counterexample :
    ¬ (((enumerateMeta [{ key := [listC] }] 1).map
        (fun m => m.key)).Nodup) := by
  decide

end MirrorClone.IndexPipe
